import Mathlib

/-!
Verification of the distributed code mesh subsystem
(`src/aiplatform/mesh_ide.py`) against its specification.

The Python classes are shallowly embedded as Lean structures whose fields
mirror the Python instance attributes.  Python `dict`s (which preserve
insertion order) are modelled as association lists in insertion order;
`datetime.now()` is modelled as a strictly increasing counter (`clock`)
threaded through the state; `uuid4`-generated identifiers are modelled by a
fresh counter; raised `KeyError`s are modelled with `Except`.  The sha256 /
md5 digests are used by the code purely as content-equality fingerprints
(spec section 3), so they are modelled as injective fingerprint functions.
Link latencies are milliseconds, i.e. nonnegative integers (`Nat`).
-/

deriving instance DecidableEq for Except

namespace MeshIDE

/-- `NodeType` enum. -/
inductive NodeType
| LOCAL
| EDGE
| CLOUD
| QUANTUM
| MODEL
deriving DecidableEq, Repr

/-- `ExecutionContext` enum. -/
inductive ExecutionContext
| LOCAL
| EDGE
| CLOUD
| QUANTUM
| HYBRID
deriving DecidableEq, Repr

/-- `AgentRole` enum. -/
inductive AgentRole
| GUARDIAN
| MONITOR
| OPTIMIZER
| SECURITY
| SYNC
| COORDINATOR
deriving DecidableEq, Repr

/-- `SyncState` enum. -/
inductive SyncState
| SYNCED
| PENDING
| CONFLICT
| DIVERGED
deriving DecidableEq, Repr

/-- A raised Python exception (only `KeyError` can escape the embedded code). -/
inductive PyErr
| keyError (key : String)
deriving DecidableEq, Repr

/-- Ordered-dict lookup: first entry with the given key (Python dicts have
unique keys, so this is the Python `d[k]` / `k in d` semantics). -/
def alookup {β : Type} : List (String × β) → String → Option β
| [], _ => none
| (k, v) :: rest, key => if k = key then some v else alookup rest key

/-- Ordered-dict assignment `d[k] = v`: overwrite in place if present
(keeping the key's position), append otherwise. -/
def aset {β : Type} : List (String × β) → String → β → List (String × β)
| [], k, v => [(k, v)]
| (k', v') :: rest, k, v =>
  if k' = k then (k, v) :: rest else (k', v') :: aset rest k v

/-- sha256 hex digest truncated to 16 chars (`CodeReplica.__post_init__`,
`sync_file`): used by the code only as a content-equality fingerprint,
modelled as an injective fingerprint. -/
def sha256_16 (content : String) : String := "sha256:" ++ content

/-- md5 hex digest truncated to 8 chars (`MeshIDECoordinator.add_file`):
modelled as an injective fingerprint of the path. -/
def md5_8 (s : String) : String := "md5:" ++ s

/-- `CodeReplica` dataclass (hash is always the recomputed content hash,
matching `__post_init__` which fills an empty hash; `metadata` omitted:
never read or written by the embedded code). -/
structure CodeReplica where
  node_id : String
  node_type : NodeType
  content : String
  hash : String
  timestamp : Nat
  version : Nat
deriving DecidableEq, Repr

/-- `GuardianAgent` dataclass (the fields the embedded code reads/writes). -/
structure GuardianAgent where
  agent_id : String
  file_id : String
  role : AgentRole
  node_id : String
  status : String := "active"
deriving DecidableEq, Repr

/-- `FileMetadata` dataclass.  `replicas` is the insertion-ordered
node-id -> replica dict; `access_log` entries are opaque (only the length
is ever observed). -/
structure FileMetadata where
  file_id : String
  path : String
  replicas : List (String × CodeReplica) := []
  sync_state : SyncState := SyncState.SYNCED
  guardian_id : Option String := none
  secondary_guardians : List String := []
  access_log : List String := []
deriving DecidableEq, Repr

/-- Python `max(it, key=f)` keeps the first element and replaces it only on
a strictly greater key, so it returns the first maximal element. -/
def pyMaxByTs (x : CodeReplica) (xs : List CodeReplica) : CodeReplica :=
  xs.foldl (fun best r => if best.timestamp < r.timestamp then r else best) x

/-- `FileMetadata.get_primary_replica`: most recently updated replica
(`max` over the replica dict values by timestamp). -/
def FileMetadata.get_primary_replica (m : FileMetadata) : Option CodeReplica :=
  match m.replicas with
  | [] => none
  | (_, r) :: rest => some (pyMaxByTs r (rest.map Prod.snd))

/-- `FileMetadata.replicas_consistent`: at most one replica, or the set of
content hashes is a singleton (equivalently: every hash equals the first). -/
def FileMetadata.replicas_consistent (m : FileMetadata) : Bool :=
  if m.replicas.length ≤ 1 then true
  else
    match m.replicas with
    | [] => true
    | (_, r) :: rest => rest.all (fun p => p.2.hash == r.hash)

/-- `MeshNode` dataclass (`load` is a fraction in [0,1]; the Python float
is modelled as a rational). -/
structure MeshNode where
  node_id : String
  node_type : NodeType
  location : String := "unknown"
  status : String := "online"
  load : ℚ := 0
  latency_ms : Nat := 0
deriving DecidableEq, Repr

/-- `MeshNode.is_available`: online and load strictly below 0.9. -/
def MeshNode.is_available (n : MeshNode) : Bool :=
  n.status == "online" && decide (n.load < 9 / 10)

/-- `SyncEvent` dataclass (append-only audit record). -/
structure SyncEvent where
  event_id : String
  file_id : String
  source_node : String
  target_nodes : List String
  timestamp : Nat
  new_hash : String
  old_hash : Option String
  success : Bool := false
  latency_ms : Nat := 0
deriving DecidableEq, Repr

/-- `MeshNetworkLayer` state: insertion-ordered node registry, adjacency
sets (Python `set.add` modelled as append-if-absent), and symmetric latency
/ bandwidth edge maps. -/
structure MeshNetworkLayer where
  nodes : List (String × MeshNode) := []
  node_graph : List (String × List String) := []
  network_latencies : List ((String × String) × Nat) := []
  bandwidth : List ((String × String) × Nat) := []
deriving DecidableEq, Repr

/-- Lookup of a latency edge key (pair of node ids) in an edge map. -/
def elookup {β : Type} : List ((String × String) × β) → String × String → Option β
| [], _ => none
| (k, v) :: rest, key => if k = key then some v else elookup rest key

/-- Edge-map assignment, same overwrite-or-append semantics as `aset`. -/
def eset {β : Type} :
    List ((String × String) × β) → String × String → β → List ((String × String) × β)
| [], k, v => [(k, v)]
| (k', v') :: rest, k, v =>
  if k' = k then (k, v) :: rest else (k', v') :: eset rest k v

/-- The node registry's key list (iteration order of `self.nodes`). -/
def nodeKeys (net : MeshNetworkLayer) : List String := net.nodes.map Prod.fst

/-- `self.node_graph.get(current, [])`. -/
def adjOf (net : MeshNetworkLayer) (a : String) : List String :=
  (alookup net.node_graph a).getD []

/-- `self.network_latencies.get((a, b), 0)`. -/
def latOf (net : MeshNetworkLayer) (a b : String) : Nat :=
  (elookup net.network_latencies (a, b)).getD 0

/-- `MeshNetworkLayer.add_node`. -/
def add_node (net : MeshNetworkLayer) (node : MeshNode) : MeshNetworkLayer × Bool :=
  if (alookup net.nodes node.node_id).isSome then (net, false)
  else
    ({ net with
        nodes := net.nodes ++ [(node.node_id, node)]
        node_graph := net.node_graph ++ [(node.node_id, [])] }, true)

/-- Python `set.add` modelled as append-if-absent (the set's iteration
order is unspecified in Python; insertion order is one valid choice). -/
def setAdd (l : List String) (x : String) : List String :=
  if x ∈ l then l else l ++ [x]

/-- `MeshNetworkLayer.connect_nodes` (bidirectional edge, default
bandwidth 100). -/
def connect_nodes (net : MeshNetworkLayer) (a b : String) (latency_ms : Nat)
    (bandwidth_mbps : Nat := 100) : MeshNetworkLayer × Bool :=
  if (alookup net.nodes a).isNone || (alookup net.nodes b).isNone then (net, false)
  else
    ({ net with
        node_graph := aset (aset net.node_graph a (setAdd (adjOf net a) b)) b
          (setAdd ((alookup (aset net.node_graph a (setAdd (adjOf net a) b)) b).getD []) a)
        network_latencies :=
          eset (eset net.network_latencies (a, b) latency_ms) (b, a) latency_ms
        bandwidth := eset (eset net.bandwidth (a, b) bandwidth_mbps) (b, a) bandwidth_mbps },
      true)

/-- `a < b` on distances where `none` is `float(inf)`. -/
def optLt : Option Nat → Option Nat → Bool
| none, _ => false
| some _, none => true
| some a, some b => a < b

/-- Python `min(x :: xs, key=d)`: keeps the first element and replaces it
only on a strictly smaller key, hence returns the first minimal element
(Python iterates the `unvisited` set in an unspecified but fixed order;
registration order is one valid choice and is what the list carries). -/
def pyMinKey (d : String → Option Nat) (x : String) (xs : List String) : String :=
  xs.foldl (fun best n => if optLt (d n) (d best) then n else best) x

/-- The relaxation loop body of `find_best_path`:
`for neighbor in self.node_graph.get(current, [])`.  `dc` is
`distances[current]`, which is constant throughout the loop (a relaxation
can only lower a strictly larger distance, and `dc + latency < dc` is
impossible for `Nat` latencies). -/
def relaxList (net : MeshNetworkLayer) (current : String) (dc : Nat) (U : List String) :
    List String → (String → Option Nat) → (String → Option String) →
    (String → Option Nat) × (String → Option String)
| [], d, p => (d, p)
| nb :: rest, d, p =>
  if nb ∈ U then
    if optLt (some (dc + latOf net current nb)) (d nb) then
      relaxList net current dc U rest
        (fun n => if n = nb then some (dc + latOf net current nb) else d n)
        (fun n => if n = nb then some current else p n)
    else relaxList net current dc U rest d p
  else relaxList net current dc U rest d p

/-- The Dijkstra main loop of `find_best_path`.  Each iteration removes one
node from `unvisited`, so `fuel = unvisited.length` suffices; the loop
breaks when the minimum is at infinite distance or is the target. -/
def dijkstraLoop (net : MeshNetworkLayer) (target : String) :
    Nat → (String → Option Nat) → (String → Option String) → List String →
    (String → Option Nat) × (String → Option String)
| 0, dist, prev, _ => (dist, prev)
| fuel + 1, dist, prev, unvisited =>
  match unvisited with
  | [] => (dist, prev)
  | x :: xs =>
    let current := pyMinKey dist x xs
    match dist current with
    | none => (dist, prev)
    | some dc =>
      if current = target then (dist, prev)
      else
        let dp := relaxList net current dc unvisited (adjOf net current) dist prev
        dijkstraLoop net target fuel dp.1 dp.2 (unvisited.erase current)

/-- The path-reconstruction loop of `find_best_path`: follow `previous`
pointers from the target.  The Python loop has no bound; under the states
produced by the algorithm the chain is acyclic and shorter than the node
count, so the fuel bound never fires there. -/
def followPrev (prev : String → Option String) : Nat → Option String → List String
| _, none => []
| 0, some _ => []
| fuel + 1, some c => c :: followPrev prev fuel (prev c)

/-- `MeshNetworkLayer.find_best_path` (Dijkstra over latency weights). -/
def find_best_path (net : MeshNetworkLayer) (source target : String) : List String :=
  if (alookup net.nodes source).isNone || (alookup net.nodes target).isNone then []
  else if source = target then [source]
  else
    let keys := nodeKeys net
    let dp := dijkstraLoop net target keys.length
      (fun n => if n = source then some 0 else none) (fun _ => none) keys
    (followPrev dp.2 (keys.length + 1) (some target)).reverse

/-- `CodeReplicationManager` mutable state (the `network` reference is
passed explicitly; `replica_factor` is never read by the embedded code). -/
structure ReplState where
  files : List (String × FileMetadata) := []
  sync_events : List SyncEvent := []
  clock : Nat := 0
deriving DecidableEq, Repr

/-- `CodeReplicationManager.register_file`.  Looking up an unregistered
`primary_node` in `self.network.nodes` raises `KeyError`. -/
def register_file (net : MeshNetworkLayer) (s : ReplState)
    (file_id path initial_content primary_node : String) :
    Except PyErr (ReplState × Bool) :=
  if (alookup s.files file_id).isSome then Except.ok (s, false)
  else
    match alookup net.nodes primary_node with
    | none => Except.error (PyErr.keyError primary_node)
    | some node =>
      let replica : CodeReplica :=
        { node_id := primary_node
          node_type := node.node_type
          content := initial_content
          hash := sha256_16 initial_content
          timestamp := s.clock
          version := 1 }
      let metadata : FileMetadata :=
        { file_id := file_id, path := path, replicas := [(primary_node, replica)] }
      Except.ok
        ({ s with files := s.files ++ [(file_id, metadata)], clock := s.clock + 1 }, true)

/-- The target loop of `replicate_file`: each known target node not already
holding a replica receives a copy of the (pre-computed) primary replica. -/
def replicateLoop (net : MeshNetworkLayer) (primary : CodeReplica) :
    List String → FileMetadata → Nat → FileMetadata × Nat
| [], md, clk => (md, clk)
| node_id :: rest, md, clk =>
  match alookup net.nodes node_id with
  | some node =>
    if (alookup md.replicas node_id).isNone then
      let replica : CodeReplica :=
        { node_id := node_id
          node_type := node.node_type
          content := primary.content
          hash := primary.hash
          timestamp := clk
          version := primary.version }
      replicateLoop net primary rest
        { md with replicas := md.replicas ++ [(node_id, replica)] } (clk + 1)
    else replicateLoop net primary rest md clk
  | none => replicateLoop net primary rest md clk

/-- `CodeReplicationManager.replicate_file`. -/
def replicate_file (net : MeshNetworkLayer) (s : ReplState)
    (file_id : String) (target_nodes : List String) : ReplState × Bool :=
  match alookup s.files file_id with
  | none => (s, false)
  | some metadata =>
    match metadata.get_primary_replica with
    | none => (s, false)
    | some primary =>
      let r := replicateLoop net primary target_nodes metadata s.clock
      ({ s with files := aset s.files file_id r.1, clock := r.2 }, true)

/-- The replica-update loop of `sync_file`: every replica except the
source's is overwritten with the new content/hash, gets a fresh timestamp
and an incremented version; the non-source node ids are collected in
iteration order as the event's target list. -/
def syncReplicas (source_node new_content new_hash : String) :
    List (String × CodeReplica) → Nat → List (String × CodeReplica) × List String × Nat
| [], clk => ([], [], clk)
| (node_id, replica) :: rest, clk =>
  if node_id = source_node then
    let r := syncReplicas source_node new_content new_hash rest clk
    ((node_id, replica) :: r.1, r.2.1, r.2.2)
  else
    let r := syncReplicas source_node new_content new_hash rest (clk + 1)
    ((node_id,
      { replica with
          content := new_content, hash := new_hash
          timestamp := clk, version := replica.version + 1 }) :: r.1,
      node_id :: r.2.1, r.2.2)

/-- `CodeReplicationManager.sync_file`.  Note the order of operations in
the source: replicas are updated first, and only then is `old_hash` read
from `get_primary_replica()` — i.e. from the already-updated state. -/
def sync_file (s : ReplState) (file_id new_content source_node : String) :
    ReplState × Bool :=
  match alookup s.files file_id with
  | none => (s, false)
  | some metadata =>
    let new_hash := sha256_16 new_content
    let r := syncReplicas source_node new_content new_hash metadata.replicas s.clock
    let md1 : FileMetadata := { metadata with replicas := r.1 }
    let event : SyncEvent :=
      { event_id := "event_" ++ toString r.2.2
        file_id := file_id
        source_node := source_node
        target_nodes := r.2.1
        timestamp := r.2.2
        new_hash := new_hash
        old_hash := (md1.get_primary_replica).map (fun rep => rep.hash)
        success := true }
    let md2 : FileMetadata :=
      { md1 with
          sync_state :=
            if md1.replicas_consistent then SyncState.SYNCED else SyncState.PENDING }
    ({ s with
        files := aset s.files file_id md2
        sync_events := s.sync_events ++ [event]
        clock := r.2.2 + 1 }, true)

/-- The replica-overwrite loop of `resolve_conflict`: every replica other
than the winner's receives the winner's content/hash, version
`winner.version + 1`, and a fresh timestamp. -/
def resolveReplicas (winner : String) (winning : CodeReplica) :
    List (String × CodeReplica) → Nat → List (String × CodeReplica) × Nat
| [], clk => ([], clk)
| (node_id, replica) :: rest, clk =>
  if node_id = winner then
    let r := resolveReplicas winner winning rest clk
    ((node_id, replica) :: r.1, r.2)
  else
    let r := resolveReplicas winner winning rest (clk + 1)
    ((node_id,
      { replica with
          content := winning.content, hash := winning.hash
          version := winning.version + 1, timestamp := clk }) :: r.1, r.2)

/-- `CodeReplicationManager.resolve_conflict`. -/
def resolve_conflict (s : ReplState) (file_id winning_replica_node : String) :
    ReplState × Bool :=
  match alookup s.files file_id with
  | none => (s, false)
  | some metadata =>
    match alookup metadata.replicas winning_replica_node with
    | none => (s, false)
    | some winning =>
      let r := resolveReplicas winning_replica_node winning metadata.replicas s.clock
      let md : FileMetadata :=
        { metadata with replicas := r.1, sync_state := SyncState.SYNCED }
      ({ s with files := aset s.files file_id md, clock := r.2 }, true)

/-- `GuardianAgentSystem` mutable state; `uuid_counter` models the
freshness of `uuid4().hex[:8]` suffixes. -/
structure GuardianState where
  agents : List (String × GuardianAgent) := []
  file_guardians : List (String × String) := []
  uuid_counter : Nat := 0
deriving DecidableEq, Repr

/-- `GuardianAgentSystem.create_guardian`: registers a new agent
unconditionally (no check that the file exists anywhere); the first agent
created for a file id becomes its primary guardian. -/
def create_guardian (gs : GuardianState) (file_id node_id : String)
    (role : AgentRole := AgentRole.GUARDIAN) : GuardianState × GuardianAgent :=
  let agent_id := "guardian_" ++ file_id ++ "_" ++ toString gs.uuid_counter
  let agent : GuardianAgent :=
    { agent_id := agent_id, file_id := file_id, role := role
      node_id := node_id, status := "active" }
  ({ agents := aset gs.agents agent_id agent
     file_guardians :=
       if (alookup gs.file_guardians file_id).isSome then gs.file_guardians
       else gs.file_guardians ++ [(file_id, agent_id)]
     uuid_counter := gs.uuid_counter + 1 }, agent)

/-- `GuardianAgentSystem.add_secondary_guardian`. -/
def add_secondary_guardian (rs : ReplState) (gs : GuardianState)
    (file_id agent_id : String) : ReplState × Bool :=
  match alookup rs.files file_id with
  | none => (rs, false)
  | some metadata =>
    if (alookup gs.agents agent_id).isNone then (rs, false)
    else if agent_id ∈ metadata.secondary_guardians then (rs, true)
    else
      ({ rs with
          files := aset rs.files file_id
            { metadata with
                secondary_guardians := metadata.secondary_guardians ++ [agent_id] } },
        true)

/-- The snapshot dict returned by `GuardianAgentSystem.monitor_file`. -/
structure MonitorSnapshot where
  file_id : String
  guardian_id : String
  guardian_status : String
  sync_state : SyncState
  replica_count : Nat
  consistent : Bool
  version : Nat
  last_sync : Option Nat
  access_count : Nat
deriving DecidableEq, Repr

/-- `GuardianAgentSystem.monitor_file`.  Returns `none` (the empty dict)
when no guardian is registered; otherwise it indexes `self.agents` and then
`self.replication.files` directly, so a missing entry raises `KeyError`. -/
def monitor_file (rs : ReplState) (gs : GuardianState) (file_id : String) :
    Except PyErr (Option MonitorSnapshot) :=
  match alookup gs.file_guardians file_id with
  | none => Except.ok none
  | some guardian_id =>
    match alookup gs.agents guardian_id with
    | none => Except.error (PyErr.keyError guardian_id)
    | some guardian =>
      match alookup rs.files file_id with
      | none => Except.error (PyErr.keyError file_id)
      | some metadata =>
        let primary := metadata.get_primary_replica
        Except.ok (some
          { file_id := file_id
            guardian_id := guardian_id
            guardian_status := guardian.status
            sync_state := metadata.sync_state
            replica_count := metadata.replicas.length
            consistent := metadata.replicas_consistent
            version := (primary.map (fun r => r.version)).getD 0
            last_sync := primary.map (fun r => r.timestamp)
            access_count := metadata.access_log.length })

/-- One entry of `ExecutionPlan.steps`. -/
structure ExecStep where
  step : Nat
  action : String
  node : Option String := none
  nodes : List String := []
deriving DecidableEq, Repr

/-- `ExecutionPlan` dataclass (`plan_id` is a `uuid4` string, modelled as a
constant; `estimated_time_ms`/`confidence` keep their defaults). -/
structure ExecutionPlan where
  plan_id : String
  file_id : String
  steps : List ExecStep := []
  target_context : ExecutionContext
  primary_node : Option String := none
  backup_nodes : List String := []
deriving DecidableEq, Repr

/-- Python `min(x :: xs, key=key)` over mesh nodes: first minimal
element. -/
def pyMinNode {β : Type} [LinearOrder β] (key : MeshNode → β)
    (x : MeshNode) (xs : List MeshNode) : MeshNode :=
  xs.foldl (fun best n => if key n < key best then n else best) x

/-- `ExecutionRouter.plan_execution`.  Node selection per context mirrors
the source exactly; in particular the QUANTUM branch filters on node type
only (no `is_available` check) and takes the first match in registry
order. -/
def plan_execution (net : MeshNetworkLayer) (rs : ReplState)
    (file_id : String) (context : ExecutionContext) (developer_node : String) :
    Option ExecutionPlan :=
  match alookup rs.files file_id with
  | none => none
  | some metadata =>
    let values := net.nodes.map Prod.snd
    let sel : Option String × List String :=
      match context with
      | ExecutionContext.LOCAL => (some developer_node, [])
      | ExecutionContext.EDGE =>
        match values.filter (fun n => n.node_type == NodeType.EDGE && n.is_available) with
        | [] => (none, [])
        | x :: xs => (some (pyMinNode (fun n => n.latency_ms) x xs).node_id, [])
      | ExecutionContext.CLOUD =>
        match values.filter (fun n => n.node_type == NodeType.CLOUD && n.is_available) with
        | [] => (none, [])
        | x :: xs => (some (pyMinNode (fun n => n.load) x xs).node_id, [])
      | ExecutionContext.QUANTUM =>
        match values.filter (fun n => n.node_type == NodeType.QUANTUM) with
        | [] => (none, [])
        | x :: _ => (some x.node_id, [])
      | ExecutionContext.HYBRID =>
        (some developer_node,
          ((values.filter (fun n => n.node_id ≠ developer_node && n.is_available)).map
            (fun n => n.node_id)).take 2)
    let primary := sel.1
    let backups := sel.2
    some
      { plan_id := "plan"
        file_id := file_id
        steps :=
          [ { step := 1, action := "fetch_replica", node := primary }
          , { step := 2, action := "compile", node := primary }
          , { step := 3, action := "execute", node := primary }
          , { step := 4, action := "verify"
              node := match backups with | [] => primary | b :: _ => some b }
          , { step := 5, action := "sync_results"
              nodes := metadata.replicas.map Prod.fst } ]
        target_context := context
        primary_node := primary
        backup_nodes := backups }

/-- `MeshIDECoordinator` composite state (the router keeps no state that
the embedded code reads). -/
structure MeshIDECoordinator where
  network : MeshNetworkLayer := {}
  replication : ReplState := {}
  guardians : GuardianState := {}
deriving DecidableEq, Repr

/-- The secondary-guardian loop at the end of `add_file`. -/
def secondaryLoop : List String → String → ReplState → GuardianState →
    ReplState × GuardianState
| [], _, rs, gs => (rs, gs)
| node_id :: rest, file_id, rs, gs =>
  let cg := create_guardian gs file_id node_id AgentRole.MONITOR
  let sec := add_secondary_guardian rs cg.1 file_id cg.2.agent_id
  secondaryLoop rest file_id sec.1 cg.1

/-- `MeshIDECoordinator.add_file`: derives the file id from the path,
registers (a raised `KeyError` from `register_file` propagates), assigns a
primary guardian, replicates to up to two other available nodes and gives
each a secondary monitor guardian.  The boolean result of `register_file`
is discarded by the source. -/
def add_file (c : MeshIDECoordinator) (path content primary_node : String) :
    Except PyErr (MeshIDECoordinator × Option String) :=
  let file_id := "file_" ++ md5_8 path
  match register_file c.network c.replication file_id path content primary_node with
  | Except.error e => Except.error e
  | Except.ok reg =>
    let cg := create_guardian c.guardians file_id primary_node AgentRole.GUARDIAN
    let replica_nodes :=
      (((c.network.nodes.map Prod.snd).filter
        (fun n => n.node_id ≠ primary_node && n.is_available)).map
          (fun n => n.node_id)).take 2
    let rep := replicate_file c.network reg.1 file_id replica_nodes
    let fin := secondaryLoop replica_nodes file_id rep.1 cg.1
    Except.ok
      ({ network := c.network, replication := fin.1, guardians := fin.2 }, some file_id)

/-!  Specification-side notions used to state the claims.  -/

/-- An ordered list of node ids whose consecutive pairs are all recorded
links, starting at `a` and ending at `b` (the path notion of the spec's
path-correctness property). -/
def ValidPath (net : MeshNetworkLayer) (a b : String) (p : List String) : Prop :=
  p.head? = some a ∧ p.getLast? = some b ∧ p.Chain' (fun x y => y ∈ adjOf net x)

/-- Total recorded latency of a node sequence (sum over consecutive pairs). -/
def walkCost (net : MeshNetworkLayer) : List String → Nat
| [] => 0
| [_] => 0
| a :: b :: rest => latOf net a b + walkCost net (b :: rest)

/-- Walks built link by link from the right; equivalent to `ValidPath`
(proved below) but convenient for induction. -/
inductive IsWalk (net : MeshNetworkLayer) : String → String → List String → Prop
| single (a : String) : IsWalk net a a [a]
| snoc (a b c : String) (q : List String) :
    IsWalk net a b q → c ∈ adjOf net b → IsWalk net a c (q ++ [c])

/-- `b` can be reached from `a` along recorded links. -/
def ReachableNet (net : MeshNetworkLayer) (a b : String) : Prop :=
  ∃ p, ValidPath net a b p

/-- Well-formedness of a network state: node keys are distinct, and the
adjacency lists are duplicate-free and mention only registered nodes.
These hold for every state built through `add_node` / `connect_nodes`
(preservation is proved below). -/
def NetWf (net : MeshNetworkLayer) : Prop :=
  (nodeKeys net).Nodup ∧
  (∀ e ∈ net.node_graph, e.2.Nodup) ∧
  (∀ e ∈ net.node_graph, ∀ b ∈ e.2, b ∈ nodeKeys net)

/-- The chain of `previous` pointers followed by the reconstruction loop,
listed source-first. -/
inductive Traces (p : String → Option String) : String → List String → Prop
| stop (n : String) : p n = none → Traces p n [n]
| step (n c : String) (tr : List String) :
    p n = some c → Traces p c tr → Traces p n (tr ++ [n])

/-- `a ≤ b` on distances where `none` is `float(inf)`. -/
def optLe : Option Nat → Option Nat → Prop
| none, none => True
| none, some _ => False
| some _, none => True
| some a, some b => a ≤ b

/-- One public mutating operation of the Replication Manager. -/
inductive ReplOp
| registerOp (file_id path content primary_node : String)
| replicateOp (file_id : String) (targets : List String)
| syncOp (file_id content source : String)
| resolveOp (file_id winner : String)

/-- Apply one operation to the replication state. -/
def applyOp (net : MeshNetworkLayer) (s : ReplState) : ReplOp → Except PyErr ReplState
| ReplOp.registerOp f p c n => (register_file net s f p c n).map Prod.fst
| ReplOp.replicateOp f ts => Except.ok (replicate_file net s f ts).1
| ReplOp.syncOp f c n => Except.ok (sync_file s f c n).1
| ReplOp.resolveOp f w => Except.ok (resolve_conflict s f w).1

/-- Whether an operation is a `resolve_conflict`. -/
def isResolveOp : ReplOp → Bool
| ReplOp.resolveOp _ _ => true
| _ => false

/-- One successful `registerFile`/`replicate`/`sync` step (no
`resolveConflict`). -/
def ReplStep (net : MeshNetworkLayer) (s s' : ReplState) : Prop :=
  ∃ op, isResolveOp op = false ∧ applyOp net s op = Except.ok s'

/-- The replica a given node holds of a given file, if any. -/
def lookupReplica (s : ReplState) (fid nid : String) : Option CodeReplica :=
  (alookup s.files fid).bind (fun md => alookup md.replicas nid)

/-- Every replica timestamp lies strictly below the state's clock (the
`datetime.now()` counter).  This holds in the empty state and is preserved
by every operation (proved below), so it holds in every reachable state;
it is the hypothesis under which claim C9 is settled. -/
def ClockInv (s : ReplState) : Prop :=
  ∀ kv ∈ s.files, ∀ kv2 ∈ kv.2.replicas, kv2.2.timestamp < s.clock

/-- The observable content and hash of a node's replica of a file. -/
def replicaView (s : ReplState) (fid nid : String) : Option (String × String) :=
  (lookupReplica s fid nid).map (fun r => (r.content, r.hash))

/-!  Concrete states used by counterexamples, code-bug evaluations and
witnesses.  -/

/-- Two-node network: a local node `a` and an edge node `b`, no links. -/
def exNet2 : MeshNetworkLayer :=
  (add_node (add_node {} { node_id := "a", node_type := NodeType.LOCAL }).1
    { node_id := "b", node_type := NodeType.EDGE }).1

/-- `exNet2` plus the link `a - b` at 7 ms. -/
def exNetL : MeshNetworkLayer := (connect_nodes exNet2 "a" "b" 7).1

/-- `register_file("f1", "/a.py", "x = 1", "a")` on `exNet2`
(the registration in the repository's own `test_sync_file`). -/
def exRs1 : ReplState :=
  match register_file exNet2 {} "f1" "/a.py" "x = 1" "a" with
  | Except.ok r => r.1
  | Except.error _ => {}

/-- `exRs1` after `replicate_file("f1", ["b"])`. -/
def exRsRep : ReplState := (replicate_file exNet2 exRs1 "f1" ["b"]).1

/-- `exRsRep` after two syncs issued from node `b`: node `a`'s replica is
bumped to version 3 while `b`'s stays at version 1. -/
def exRs2 : ReplState :=
  (sync_file (sync_file exRsRep "f1" "v2" "b").1 "f1" "v3" "b").1

/-- Network with a local node `n1` and an *offline* quantum node `q`. -/
def exNetQ : MeshNetworkLayer :=
  (add_node (add_node {} { node_id := "n1", node_type := NodeType.LOCAL }).1
    { node_id := "q", node_type := NodeType.QUANTUM, status := "offline" }).1

/-- A file registered at `n1` on `exNetQ`. -/
def exRsQ : ReplState :=
  match register_file exNetQ {} "f" "/p.py" "c" "n1" with
  | Except.ok r => r.1
  | Except.error _ => {}

/-- A file registered at `a` on `exNet2` (no quantum node anywhere). -/
def exRsNoQ : ReplState := exRs1

/-- Loop invariant of the Dijkstra main loop, between iterations (after
at least one node — always the source — has been settled).  `U` is the
`unvisited` set, `d` the distance map (`none` is infinity), `p` the
`previous` map.  Settled nodes (registered nodes not in `U`) carry exact
shortest distances; every node with a finite distance has a `previous`
chain tracing an actual walk of that cost from the source. -/
structure DInv (net : MeshNetworkLayer) (source target : String) (U : List String)
    (d : String → Option Nat) (p : String → Option String) : Prop where
  sub : U.Sublist (nodeKeys net)
  tgtU : target ∈ U
  srcS : source ∉ U
  srcK : source ∈ nodeKeys net
  dsrc : d source = some 0
  psrc : p source = none
  settled_some : ∀ v ∈ nodeKeys net, v ∉ U → (d v).isSome
  settled_min : ∀ v ∈ nodeKeys net, v ∉ U → ∀ q, IsWalk net source v q →
    ∀ dv, d v = some dv → dv ≤ walkCost net q
  frontier : ∀ v ∈ nodeKeys net, v ∉ U → ∀ u ∈ adjOf net v, ∀ dv, d v = some dv →
    ∃ du, d u = some du ∧ du ≤ dv + latOf net v u
  mono : ∀ v ∈ nodeKeys net, v ∉ U → ∀ u ∈ U, optLe (d v) (d u)
  trace : ∀ n dn, d n = some dn → ∃ tr, Traces p n tr ∧ IsWalk net source n tr ∧
    walkCost net tr = dn ∧ tr.Nodup ∧ (∀ x ∈ tr, x ∈ nodeKeys net) ∧
    (∀ x ∈ tr.dropLast, x ∉ U)
  pd : ∀ n c, p n = some c → (d n).isSome

/-- Invariant threaded through the relaxation loop of one Dijkstra
iteration (`current` is the node being settled, `dc` its distance, `U` the
unvisited set *before* `current` is removed). -/
structure RelaxInv (net : MeshNetworkLayer) (source current : String) (dc : Nat)
    (U : List String) (d : String → Option Nat) (p : String → Option String) : Prop where
  dsrc : d source = some 0
  psrc : p source = none
  dcur : d current = some dc
  pd : ∀ n c, p n = some c → (d n).isSome
  trace : ∀ n dn, d n = some dn → ∃ tr, Traces p n tr ∧ IsWalk net source n tr ∧
    walkCost net tr = dn ∧ tr.Nodup ∧ (∀ x ∈ tr, x ∈ nodeKeys net) ∧
    (∀ x ∈ tr.dropLast, x ∉ U ∨ x = current)

/-- What holds of the distance/previous maps when the Dijkstra main loop
returns. -/
structure DijkOut (net : MeshNetworkLayer) (source target : String)
    (d : String → Option Nat) (p : String → Option String) : Prop where
  trace : ∀ n dn, d n = some dn → ∃ tr, Traces p n tr ∧ IsWalk net source n tr ∧
    walkCost net tr = dn ∧ tr.Nodup ∧ (∀ x ∈ tr, x ∈ nodeKeys net)
  pd : ∀ n c, p n = some c → (d n).isSome
  reach : ReachableNet net source target → ∃ dt, d target = some dt ∧
    (∀ q, IsWalk net source target q → dt ≤ walkCost net q)

/-!  Association-list lemmas.  -/

theorem alookup_append_right {β : Type} {l₁ : List (String × β)} (l₂ : List (String × β))
    {k : String} (h : alookup l₁ k = none) : alookup (l₁ ++ l₂) k = alookup l₂ k := by
  induction l₁ with
  | nil => simp
  | cons hd tl ih =>
    obtain ⟨k', v'⟩ := hd
    by_cases hk : k' = k
    · simp [alookup, hk] at h
    · simp only [alookup, hk, if_false, List.cons_append] at h ⊢
      exact ih h

theorem alookup_append_left {β : Type} {l₁ : List (String × β)} (l₂ : List (String × β))
    {k : String} {v : β} (h : alookup l₁ k = some v) :
    alookup (l₁ ++ l₂) k = some v := by
  induction l₁ with
  | nil => simp [alookup] at h
  | cons hd tl ih =>
    obtain ⟨k', v'⟩ := hd
    by_cases hk : k' = k
    · simp only [alookup, hk, if_true, List.cons_append] at h ⊢
      exact h
    · simp only [alookup, hk, if_false, List.cons_append] at h ⊢
      exact ih h

theorem alookup_aset_self {β : Type} (l : List (String × β)) (k : String) (v : β) :
    alookup (aset l k v) k = some v := by
  induction l with
  | nil => simp [alookup, aset]
  | cons hd tl ih =>
    obtain ⟨k', v'⟩ := hd
    by_cases hk : k' = k
    · simp [alookup, aset, hk]
    · simp [alookup, aset, hk, ih]

theorem alookup_aset_ne {β : Type} (l : List (String × β)) {k k' : String} (v : β)
    (h : k' ≠ k) : alookup (aset l k v) k' = alookup l k' := by
  have hne : ¬ k = k' := fun hk => h hk.symm
  induction l with
  | nil => simp [alookup, aset, hne]
  | cons hd tl ih =>
    obtain ⟨k'', v''⟩ := hd
    by_cases hk : k'' = k
    · subst hk
      simp [alookup, aset, hne]
    · simp only [aset, hk, if_false, alookup]
      by_cases hk2 : k'' = k' <;> simp [hk2, ih]

theorem alookup_mem {β : Type} {l : List (String × β)} {k : String} {v : β}
    (h : alookup l k = some v) : (k, v) ∈ l := by
  induction l with
  | nil => simp [alookup] at h
  | cons hd tl ih =>
    obtain ⟨k', v'⟩ := hd
    by_cases hk : k' = k
    · subst hk
      simp only [alookup, if_true] at h
      cases h
      exact List.mem_cons_self _ _
    · simp only [alookup, hk, if_false] at h
      exact List.mem_cons_of_mem _ (ih h)

theorem alookup_isSome_iff_mem {β : Type} (l : List (String × β)) (k : String) :
    (alookup l k).isSome ↔ k ∈ l.map Prod.fst := by
  induction l with
  | nil => simp [alookup]
  | cons hd tl ih =>
    obtain ⟨k', v'⟩ := hd
    by_cases hk : k' = k
    · subst hk
      simp [alookup]
    · simp [alookup, hk, ih, Ne.symm hk]

/-- The first element of a filtered list is the first element satisfying
the predicate. -/
theorem head_filter_eq_find {α : Type} (p : α → Bool) (l : List α) :
    (l.filter p).head? = l.find? p := by
  induction l with
  | nil => rfl
  | cons hd tl ih =>
    by_cases h : p hd
    · simp [List.filter_cons, List.find?, h]
    · simp only [List.filter_cons, List.find?, h, Bool.false_eq_true, if_false]
      rw [ih]

/-!  Claim C8 (corrected).  `register_file` / `add_file` with a fresh file
id but an unregistered primary node do not return a failure signal: the
node-registry lookup raises an unhandled `KeyError`.  -/

/-- C8 counterexample: on an empty topology, registering a fresh file with
unknown primary node `n1` raises `KeyError` (modelled as `Except.error`)
from both `register_file` and the Coordinator's `add_file`, instead of
returning an explicit failure signal. -/
theorem C8_counterexample :
    alookup ({} : ReplState).files "f1" = none ∧
    alookup ({} : MeshNetworkLayer).nodes "n1" = none ∧
    register_file {} {} "f1" "/a.py" "x = 1" "n1" =
      Except.error (PyErr.keyError "n1") ∧
    add_file {} "/a.py" "x = 1" "n1" = Except.error (PyErr.keyError "n1") := by
  decide

/-- C8 (amended): whenever the file id is fresh and the primary node is
not registered in the Topology Layer, `register_file` raises `KeyError`
on the node lookup (it never reaches a return), and the Coordinator's
`add_file` propagates the same `KeyError`. -/
theorem C8_register_unknown_node_raises :
    (∀ (net : MeshNetworkLayer) (s : ReplState) (fid path content pnode : String),
      alookup s.files fid = none → alookup net.nodes pnode = none →
      register_file net s fid path content pnode =
        Except.error (PyErr.keyError pnode)) ∧
    (∀ (c : MeshIDECoordinator) (path content pnode : String),
      alookup c.replication.files ("file_" ++ md5_8 path) = none →
      alookup c.network.nodes pnode = none →
      add_file c path content pnode = Except.error (PyErr.keyError pnode)) := by
  constructor
  · intro net s fid path content pnode hfile hnode
    simp [register_file, hfile, hnode]
  · intro c path content pnode hfile hnode
    have h : register_file c.network c.replication ("file_" ++ md5_8 path) path
        content pnode = Except.error (PyErr.keyError pnode) := by
      simp [register_file, hfile, hnode]
    simp [add_file, h]

/-- C8 witness: the amended theorem applied at the concrete empty state. -/
theorem C8_register_unknown_node_raises_witness :
    (alookup ({} : ReplState).files "f9" = none ∧
      alookup ({} : MeshNetworkLayer).nodes "n9" = none) ∧
    register_file {} {} "f9" "/b.py" "y" "n9" =
      Except.error (PyErr.keyError "n9") :=
  ⟨⟨by decide, by decide⟩,
    C8_register_unknown_node_raises.1 {} {} "f9" "/b.py" "y" "n9"
      (by decide) (by decide)⟩

/-!  Claim C10 (confirmed).  `create_guardian` performs no file-existence
check, the first agent becomes primary, and a subsequent `monitor_file` on
an unregistered file raises `KeyError`.  -/

/-- C10: creating a guardian for a file id unknown to the Replication
Manager succeeds and installs the new agent as the file's primary
guardian; `monitor_file` on that file id then raises an unhandled
`KeyError` (instead of returning a snapshot or the empty result). -/
theorem C10_guardian_no_existence_check (gs : GuardianState) (rs : ReplState)
    (fid nid : String) (role : AgentRole)
    (hfg : alookup gs.file_guardians fid = none)
    (hfile : alookup rs.files fid = none) :
    alookup (create_guardian gs fid nid role).1.file_guardians fid =
      some (create_guardian gs fid nid role).2.agent_id ∧
    monitor_file rs (create_guardian gs fid nid role).1 fid =
      Except.error (PyErr.keyError fid) := by
  have hfg' : (alookup gs.file_guardians fid).isSome = false := by
    rw [hfg]; rfl
  have hguard : alookup (create_guardian gs fid nid role).1.file_guardians fid =
      some ("guardian_" ++ fid ++ "_" ++ toString gs.uuid_counter) := by
    simp only [create_guardian, hfg', Bool.false_eq_true, if_false]
    rw [alookup_append_right _ hfg]
    simp [alookup]
  refine ⟨by rw [hguard]; rfl, ?_⟩
  simp only [monitor_file, hguard]
  have hagent :
      alookup (create_guardian gs fid nid role).1.agents
        ("guardian_" ++ fid ++ "_" ++ toString gs.uuid_counter) =
      some (create_guardian gs fid nid role).2 := by
    simp only [create_guardian]
    exact alookup_aset_self _ _ _
  rw [hagent, hfile]

/-- C10 witness: the theorem applied at the empty guardian and replication
states. -/
theorem C10_guardian_no_existence_check_witness :
    (alookup ({} : GuardianState).file_guardians "ghost" = none ∧
      alookup ({} : ReplState).files "ghost" = none) ∧
    (alookup (create_guardian {} "ghost" "n1" AgentRole.GUARDIAN).1.file_guardians
        "ghost" =
      some (create_guardian {} "ghost" "n1" AgentRole.GUARDIAN).2.agent_id ∧
    monitor_file {} (create_guardian {} "ghost" "n1" AgentRole.GUARDIAN).1 "ghost" =
      Except.error (PyErr.keyError "ghost")) :=
  ⟨⟨by decide, by decide⟩,
    C10_guardian_no_existence_check {} {} "ghost" "n1" AgentRole.GUARDIAN
      (by decide) (by decide)⟩

/-!  Claim C4 (corrected).  With no quantum node registered,
`plan_execution` does not crash, but it does not return none/error
either: it returns a plan whose `primary_node` is unset.  -/

/-- C4 counterexample: `exNet2` has no quantum-class node and file `f1` is
registered, yet `plan_execution` with the quantum context returns a plan
(`isSome`), not none or an error. -/
theorem C4_counterexample :
    (∀ kv ∈ exNet2.nodes, kv.2.node_type ≠ NodeType.QUANTUM) ∧
    (alookup exRsNoQ.files "f1").isSome = true ∧
    (plan_execution exNet2 exRsNoQ "f1" ExecutionContext.QUANTUM "a").isSome = true := by
  decide

/-- C4 (amended): for a registered file and a topology with no
quantum-class node, `plan_execution` with the quantum context returns a
plan whose `primary_node` is `none` (it neither crashes nor returns
none/error). -/
theorem C4_quantum_no_node_plan (net : MeshNetworkLayer) (rs : ReplState)
    (fid dev : String) (hf : (alookup rs.files fid).isSome)
    (hq : ∀ kv ∈ net.nodes, kv.2.node_type ≠ NodeType.QUANTUM) :
    (plan_execution net rs fid ExecutionContext.QUANTUM dev).map
      (fun pl => pl.primary_node) = some none := by
  obtain ⟨md, hmd⟩ := Option.isSome_iff_exists.mp hf
  have hfilter : (net.nodes.map Prod.snd).filter
      (fun n => n.node_type == NodeType.QUANTUM) = [] := by
    rw [List.filter_eq_nil_iff]
    intro n hn
    obtain ⟨kv, hkv, rfl⟩ := List.mem_map.mp hn
    simpa using hq kv hkv
  simp [plan_execution, hmd, hfilter]

/-- C4 witness: the amended theorem applied at `exNet2` / `exRsNoQ`. -/
theorem C4_quantum_no_node_plan_witness :
    ((alookup exRsNoQ.files "f1").isSome = true ∧
      (∀ kv ∈ exNet2.nodes, kv.2.node_type ≠ NodeType.QUANTUM)) ∧
    (plan_execution exNet2 exRsNoQ "f1" ExecutionContext.QUANTUM "a").map
      (fun pl => pl.primary_node) = some none :=
  ⟨⟨by decide, by decide⟩,
    C4_quantum_no_node_plan exNet2 exRsNoQ "f1" "a" (by decide) (by decide)⟩

/-!  Claim C5 (corrected).  The quantum branch of `plan_execution` never
consults `is_available`: it picks the first quantum-class node in registry
order even when that node is offline or overloaded.  -/

/-- C5 counterexample: on `exNetQ` the only quantum node `q` is offline
(`is_available = false`), yet `plan_execution` selects it as the plan's
primary node. -/
theorem C5_counterexample :
    (alookup exNetQ.nodes "q").map MeshNode.is_available = some false ∧
    (plan_execution exNetQ exRsQ "f" ExecutionContext.QUANTUM "n1").map
      (fun pl => pl.primary_node) = some (some "q") := by
  decide

/-- C5 (amended): for a registered file, the quantum-context plan's
primary node is the first quantum-class node in registry order — with no
availability filtering — and `none` when no quantum node exists. -/
theorem C5_quantum_first_in_registry_order (net : MeshNetworkLayer)
    (rs : ReplState) (fid dev : String) (hf : (alookup rs.files fid).isSome) :
    (plan_execution net rs fid ExecutionContext.QUANTUM dev).map
      (fun pl => pl.primary_node) =
      some (((net.nodes.map Prod.snd).find?
        (fun n => n.node_type == NodeType.QUANTUM)).map (fun n => n.node_id)) := by
  obtain ⟨md, hmd⟩ := Option.isSome_iff_exists.mp hf
  rw [← head_filter_eq_find]
  cases h : (net.nodes.map Prod.snd).filter
      (fun n => n.node_type == NodeType.QUANTUM) <;>
    simp [plan_execution, hmd, h]

/-- C5 witness: the amended theorem applied at `exNetQ` / `exRsQ`, where
the first (and only) quantum node is the offline `q`. -/
theorem C5_quantum_first_in_registry_order_witness :
    (alookup exRsQ.files "f").isSome = true ∧
    (plan_execution exNetQ exRsQ "f" ExecutionContext.QUANTUM "n1").map
      (fun pl => pl.primary_node) =
      some (((exNetQ.nodes.map Prod.snd).find?
        (fun n => n.node_type == NodeType.QUANTUM)).map (fun n => n.node_id)) :=
  ⟨by decide, C5_quantum_first_in_registry_order exNetQ exRsQ "f" "n1" (by decide)⟩

/-!  Claim C1 (code bug).  `sync_file` skips the source node's replica, so
after `sync(f1, "x = 2", a)` the replica held by `a` still has the old
content: the replicas are inconsistent and the sync state is `pending`,
while the claim — and the repository's own `test_sync_file`, which asserts
that *all* replicas carry the new content — require consistency.  -/

/-- C1: evaluating the code on the repository's own test scenario
(`register("f1", "x = 1", a)`, `replicate(["b"])`, `sync("x = 2", a)`):
the sync reports success, yet the source replica keeps the old content,
the replica hashes differ, and the file ends `PENDING`, not `SYNCED`. -/
theorem C1_sync_skips_source_replica :
    (sync_file exRsRep "f1" "x = 2" "a").2 = true ∧
    replicaView (sync_file exRsRep "f1" "x = 2" "a").1 "f1" "a" =
      some ("x = 1", sha256_16 "x = 1") ∧
    replicaView (sync_file exRsRep "f1" "x = 2" "a").1 "f1" "b" =
      some ("x = 2", sha256_16 "x = 2") ∧
    (alookup (sync_file exRsRep "f1" "x = 2" "a").1.files "f1").map
      FileMetadata.replicas_consistent = some false ∧
    (alookup (sync_file exRsRep "f1" "x = 2" "a").1.files "f1").map
      (fun md => md.sync_state) = some SyncState.PENDING := by
  decide

/-!  Claim C3 (corrected).  `registerFile`/`replicate`/`sync` never
decrease a replica's version, but `resolveConflict` overwrites every
non-winning replica's version with `winner.version + 1`, which can be
smaller than the version that replica held before the call.  -/

/-- C3 counterexample: in `exRs2` node `a` holds version 3 of `f1` and
node `b` (the winner) holds version 1; `resolve_conflict(f1, b)` sets
`a`'s version to 2 — a decrease. -/
theorem C3_counterexample :
    (lookupReplica exRs2 "f1" "a").map (fun r => r.version) = some 3 ∧
    (lookupReplica (resolve_conflict exRs2 "f1" "b").1 "f1" "a").map
      (fun r => r.version) = some 2 ∧
    2 < 3 := by
  decide

/-!  `resolve_conflict` loop lemmas.  -/

/-- The winner's entry is left untouched by the overwrite loop. -/
theorem resolveReplicas_lookup_winner (w : String) (winning : CodeReplica)
    (l : List (String × CodeReplica)) (clk : Nat) :
    alookup (resolveReplicas w winning l clk).1 w = alookup l w := by
  induction l generalizing clk with
  | nil => rfl
  | cons hd tl ih =>
    obtain ⟨nid, r⟩ := hd
    by_cases h : nid = w
    · subst h
      simp [resolveReplicas, alookup, ih]
    · simp [resolveReplicas, alookup, h, ih]

/-- Keys absent before the overwrite loop are absent after it. -/
theorem resolveReplicas_lookup_none (w : String) (winning : CodeReplica)
    {l : List (String × CodeReplica)} (clk : Nat) {nid : String}
    (h : alookup l nid = none) :
    alookup (resolveReplicas w winning l clk).1 nid = none := by
  induction l generalizing clk with
  | nil => rfl
  | cons hd tl ih =>
    obtain ⟨nid', r⟩ := hd
    by_cases h' : nid' = nid
    · simp [alookup, h'] at h
    · simp only [alookup, h', if_false] at h
      by_cases hw : nid' = w
      · have hwn : ¬ w = nid := fun hh => h' (hw.trans hh)
        simp [resolveReplicas, alookup, hw, hwn, ih _ h]
      · simp [resolveReplicas, alookup, hw, h', ih _ h]

/-- Pointwise effect of the overwrite loop: the winner's replica is kept,
every other replica receives the winner's content/hash and version
`winner.version + 1` (with some fresh timestamp). -/
theorem resolveReplicas_lookup_some (w : String) (winning : CodeReplica)
    {l : List (String × CodeReplica)} (clk : Nat) {nid : String} {r : CodeReplica}
    (h : alookup l nid = some r) :
    ∃ ts, alookup (resolveReplicas w winning l clk).1 nid =
      some (if nid = w then r else
        { r with content := winning.content, hash := winning.hash
                 version := winning.version + 1, timestamp := ts }) := by
  induction l generalizing clk with
  | nil => simp [alookup] at h
  | cons hd tl ih =>
    obtain ⟨nid', r'⟩ := hd
    by_cases h' : nid' = nid
    · subst h'
      simp only [alookup, if_true] at h
      cases h
      by_cases hw : nid' = w
      · subst hw
        exact ⟨0, by simp [resolveReplicas, alookup]⟩
      · exact ⟨clk, by simp [resolveReplicas, alookup, hw]⟩
    · simp only [alookup, h', if_false] at h
      by_cases hw : nid' = w
      · have hwn : ¬ w = nid := fun hh => h' (hw.trans hh)
        obtain ⟨ts, hts⟩ := ih clk h
        exact ⟨ts, by simp [resolveReplicas, alookup, hw, hwn, hts]⟩
      · obtain ⟨ts, hts⟩ := ih (clk + 1) h
        exact ⟨ts, by simp [resolveReplicas, alookup, hw, h', hts]⟩

/-!  Claim C7 (confirmed).  `resolve_conflict` is idempotent with respect
to replica content and hash.  -/

/-- C7: for a registered file and a winning node holding a replica of it,
calling `resolve_conflict` twice in a row leaves every replica with the
same content and hash as after the first call (the second call changes no
replica's content). -/
theorem C7_resolve_conflict_idempotent_content (s : ReplState)
    (fid w : String) (md : FileMetadata) (winning : CodeReplica)
    (hmd : alookup s.files fid = some md)
    (hw : alookup md.replicas w = some winning) :
    ∀ nid, replicaView (resolve_conflict (resolve_conflict s fid w).1 fid w).1 fid nid =
      replicaView (resolve_conflict s fid w).1 fid nid := by
  intro nid
  have h1 : resolve_conflict s fid w =
      ({ s with
          files := aset s.files fid
            { md with
                replicas := (resolveReplicas w winning md.replicas s.clock).1
                sync_state := SyncState.SYNCED }
          clock := (resolveReplicas w winning md.replicas s.clock).2 }, true) := by
    simp [resolve_conflict, hmd, hw]
  set s1 := (resolve_conflict s fid w).1 with hs1
  have hmd1 : alookup s1.files fid =
      some { md with
              replicas := (resolveReplicas w winning md.replicas s.clock).1
              sync_state := SyncState.SYNCED } := by
    rw [hs1, h1]
    exact alookup_aset_self _ _ _
  have hw1 : alookup (resolveReplicas w winning md.replicas s.clock).1 w =
      some winning := by
    rw [resolveReplicas_lookup_winner]
    exact hw
  have h2 : resolve_conflict s1 fid w =
      ({ s1 with
          files := aset s1.files fid
            { md with
                replicas := (resolveReplicas w winning
                  (resolveReplicas w winning md.replicas s.clock).1 s1.clock).1
                sync_state := SyncState.SYNCED }
          clock := (resolveReplicas w winning
            (resolveReplicas w winning md.replicas s.clock).1 s1.clock).2 }, true) := by
    simp [resolve_conflict, hmd1, hw1]
  have hview2 : replicaView (resolve_conflict s1 fid w).1 fid nid =
      (alookup (resolveReplicas w winning
        (resolveReplicas w winning md.replicas s.clock).1 s1.clock).1 nid).map
          (fun r => (r.content, r.hash)) := by
    rw [h2]
    simp only [replicaView, lookupReplica]
    rw [alookup_aset_self]
    rfl
  have hview1 : replicaView s1 fid nid =
      (alookup (resolveReplicas w winning md.replicas s.clock).1 nid).map
        (fun r => (r.content, r.hash)) := by
    simp only [replicaView, lookupReplica, hmd1]
    rfl
  rw [hview2, hview1]
  cases h : alookup md.replicas nid with
  | none =>
    rw [resolveReplicas_lookup_none w winning s.clock h,
      resolveReplicas_lookup_none w winning s1.clock
        (resolveReplicas_lookup_none w winning s.clock h)]
  | some r =>
    obtain ⟨ts1, hts1⟩ := resolveReplicas_lookup_some w winning s.clock h
    obtain ⟨ts2, hts2⟩ := resolveReplicas_lookup_some w winning s1.clock hts1
    rw [hts1, hts2]
    by_cases hnw : nid = w <;> simp [hnw]

/-- C7 witness: the theorem applied at the diverged concrete state
`exRs2` with winner `b`. -/
theorem C7_resolve_conflict_idempotent_content_witness :
    (∃ md winning, alookup exRs2.files "f1" = some md ∧
      alookup md.replicas "b" = some winning) ∧
    replicaView (resolve_conflict (resolve_conflict exRs2 "f1" "b").1 "f1" "b").1
        "f1" "a" =
      replicaView (resolve_conflict exRs2 "f1" "b").1 "f1" "a" := by
  refine ⟨⟨_, _, rfl, rfl⟩, ?_⟩
  exact C7_resolve_conflict_idempotent_content exRs2 "f1" "b" _ _ rfl rfl "a"

/-!  `sync_file` / `replicate_file` loop lemmas.  -/

/-- The sync loop keeps every replica's key and can only increment its
version (source replicas are untouched, the rest gain exactly 1). -/
theorem syncReplicas_lookup_some (src c h : String)
    {l : List (String × CodeReplica)} (clk : Nat) {nid : String} {r : CodeReplica}
    (hr : alookup l nid = some r) :
    ∃ r', alookup (syncReplicas src c h l clk).1 nid = some r' ∧
      r.version ≤ r'.version := by
  induction l generalizing clk with
  | nil => simp [alookup] at hr
  | cons hd tl ih =>
    obtain ⟨nid', r''⟩ := hd
    by_cases h' : nid' = nid
    · subst h'
      simp only [alookup, if_true] at hr
      cases hr
      by_cases hs : nid' = src
      · exact ⟨r, by simp [syncReplicas, alookup, hs], le_refl _⟩
      · refine ⟨{ r with
            content := c, hash := h,
            timestamp := clk, version := r.version + 1 }, ?_, Nat.le_succ _⟩
        simp [syncReplicas, alookup, hs]
    · simp only [alookup, h', if_false] at hr
      by_cases hs : nid' = src
      · obtain ⟨r', hr', hv⟩ := ih clk hr
        refine ⟨r', ?_, hv⟩
        subst hs
        simp [syncReplicas, alookup, h', hr']
      · obtain ⟨r', hr', hv⟩ := ih (clk + 1) hr
        refine ⟨r', ?_, hv⟩
        simp [syncReplicas, alookup, hs, h', hr']

/-- Source-node entries pass through the sync loop unchanged. -/
theorem syncReplicas_source_entries (src c h : String)
    (l : List (String × CodeReplica)) (clk : Nat) :
    ∀ kv ∈ (syncReplicas src c h l clk).1, kv.1 = src → kv ∈ l := by
  induction l generalizing clk with
  | nil => simp [syncReplicas]
  | cons hd tl ih =>
    obtain ⟨nid, r⟩ := hd
    by_cases hs : nid = src
    · subst hs
      intro kv hkv hsrc
      simp only [syncReplicas, if_pos, List.mem_cons] at hkv
      rcases hkv with hkv | hkv
      · subst hkv; exact List.mem_cons_self _ _
      · exact List.mem_cons_of_mem _ (ih clk kv hkv hsrc)
    · intro kv hkv hsrc
      simp only [syncReplicas, hs, if_false, List.mem_cons] at hkv
      rcases hkv with hkv | hkv
      · exfalso; rw [hkv] at hsrc; exact hs hsrc
      · exact List.mem_cons_of_mem _ (ih (clk + 1) kv hkv hsrc)

/-- Non-source entries of the sync loop's output carry the new hash and a
timestamp at or above the loop's starting clock. -/
theorem syncReplicas_updated_entries (src c h : String)
    (l : List (String × CodeReplica)) (clk : Nat) :
    ∀ kv ∈ (syncReplicas src c h l clk).1, kv.1 ≠ src →
      kv.2.hash = h ∧ clk ≤ kv.2.timestamp := by
  induction l generalizing clk with
  | nil => simp [syncReplicas]
  | cons hd tl ih =>
    obtain ⟨nid, r⟩ := hd
    by_cases hs : nid = src
    · subst hs
      intro kv hkv hsrc
      simp only [syncReplicas, if_pos, List.mem_cons] at hkv
      rcases hkv with hkv | hkv
      · exfalso; rw [hkv] at hsrc; exact hsrc rfl
      · exact ih clk kv hkv hsrc
    · intro kv hkv hsrc
      simp only [syncReplicas, hs, if_false, List.mem_cons] at hkv
      rcases hkv with hkv | hkv
      · subst hkv
        exact ⟨rfl, le_refl _⟩
      · obtain ⟨hh, hts⟩ := ih (clk + 1) kv hkv hsrc
        exact ⟨hh, le_trans (Nat.le_succ _) hts⟩

/-- If some input entry is not the source's, some output entry is not the
source's either. -/
theorem syncReplicas_exists_updated (src c h : String)
    (l : List (String × CodeReplica)) (clk : Nat)
    (hother : ∃ kv ∈ l, kv.1 ≠ src) :
    ∃ kv ∈ (syncReplicas src c h l clk).1, kv.1 ≠ src := by
  induction l generalizing clk with
  | nil => simp at hother
  | cons hd tl ih =>
    obtain ⟨nid, r⟩ := hd
    by_cases hs : nid = src
    · subst hs
      obtain ⟨kv, hkv, hne⟩ := hother
      rcases List.mem_cons.mp hkv with hkv | hkv
      · exfalso; rw [hkv] at hne; exact hne rfl
      · obtain ⟨kv', hkv', hne'⟩ := ih clk ⟨kv, hkv, hne⟩
        refine ⟨kv', ?_, hne'⟩
        simp only [syncReplicas, if_pos, List.mem_cons]
        exact Or.inr hkv'
    · refine ⟨(nid, { r with
        content := c, hash := h,
        timestamp := clk, version := r.version + 1 }), ?_, ?_⟩
      · simp [syncReplicas, hs]
      · simpa using hs

/-- The replicate loop never modifies an existing replica entry. -/
theorem replicateLoop_lookup_some (net : MeshNetworkLayer) (primary : CodeReplica)
    (targets : List String) {md : FileMetadata} {clk : Nat} {nid : String}
    {r : CodeReplica} (hr : alookup md.replicas nid = some r) :
    alookup (replicateLoop net primary targets md clk).1.replicas nid = some r := by
  induction targets generalizing md clk with
  | nil => exact hr
  | cons t rest ih =>
    simp only [replicateLoop]
    cases hn : alookup net.nodes t with
    | none => exact ih hr
    | some node =>
      by_cases habs : (alookup md.replicas t).isNone
      · simp only [habs, if_true]
        exact ih (alookup_append_left _ hr)
      · simp only [habs, Bool.false_eq_true, if_false]
        exact ih hr

/-!  Claim C3 (corrected): the amended version-semantics theorem.  -/

/-- One `registerFile`/`replicate`/`sync` step never decreases an existing
replica's version. -/
theorem replStep_version_mono {net : MeshNetworkLayer} {s s' : ReplState}
    (h : ReplStep net s s') :
    ∀ fid nid r, lookupReplica s fid nid = some r →
      ∃ r', lookupReplica s' fid nid = some r' ∧ r.version ≤ r'.version := by
  obtain ⟨op, hop, happ⟩ := h
  intro fid nid r hr
  obtain ⟨mdf, hmdf, hrep⟩ :
      ∃ mdf, alookup s.files fid = some mdf ∧ alookup mdf.replicas nid = some r := by
    unfold lookupReplica at hr
    cases hmd : alookup s.files fid with
    | none => rw [hmd] at hr; simp at hr
    | some mdf => rw [hmd] at hr; exact ⟨mdf, rfl, hr⟩
  cases op with
  | registerOp f p c n =>
    simp only [applyOp] at happ
    by_cases hf : (alookup s.files f).isSome
    · simp only [register_file, hf, if_true, Except.map] at happ
      cases happ
      exact ⟨r, hr, le_refl _⟩
    · simp only [register_file, hf, Bool.false_eq_true, if_false] at happ
      cases hn : alookup net.nodes n with
      | none => rw [hn] at happ; simp [Except.map] at happ
      | some node =>
        rw [hn] at happ
        simp only [Except.map] at happ
        cases happ
        refine ⟨r, ?_, le_refl _⟩
        simp only [lookupReplica]
        rw [alookup_append_left _ hmdf]
        exact hrep
  | replicateOp f ts =>
    simp only [applyOp] at happ
    cases hmd : alookup s.files f with
    | none =>
      simp only [replicate_file, hmd] at happ
      cases happ
      exact ⟨r, hr, le_refl _⟩
    | some md =>
      cases hprim : md.get_primary_replica with
      | none =>
        simp only [replicate_file, hmd, hprim] at happ
        cases happ
        exact ⟨r, hr, le_refl _⟩
      | some primary =>
        simp only [replicate_file, hmd, hprim] at happ
        cases happ
        by_cases hfid : fid = f
        · subst hfid
          rw [hmdf] at hmd
          cases hmd
          refine ⟨r, ?_, le_refl _⟩
          simp only [lookupReplica, alookup_aset_self]
          exact replicateLoop_lookup_some net primary ts hrep
        · refine ⟨r, ?_, le_refl _⟩
          simp only [lookupReplica]
          rw [alookup_aset_ne _ _ hfid, hmdf]
          exact hrep
  | syncOp f c n =>
    simp only [applyOp] at happ
    cases hmd : alookup s.files f with
    | none =>
      simp only [sync_file, hmd] at happ
      cases happ
      exact ⟨r, hr, le_refl _⟩
    | some md =>
      simp only [sync_file, hmd] at happ
      cases happ
      by_cases hfid : fid = f
      · subst hfid
        rw [hmdf] at hmd
        cases hmd
        obtain ⟨r', hr', hv⟩ :=
          syncReplicas_lookup_some n c (sha256_16 c) s.clock hrep
        refine ⟨r', ?_, hv⟩
        simp only [lookupReplica, alookup_aset_self]
        exact hr'
      · refine ⟨r, ?_, le_refl _⟩
        simp only [lookupReplica]
        rw [alookup_aset_ne _ _ hfid, hmdf]
        exact hrep
  | resolveOp f w => simp [isResolveOp] at hop

/-- C3 (amended): across any sequence of `registerFile`/`replicate`/`sync`
operations a replica's version never decreases; `resolveConflict`, by
contrast, sets every non-winning replica's version to `winner.version + 1`
(the winner keeps its version), which can be *below* the version the
replica held before the call. -/
theorem C3_version_semantics :
    (∀ (net : MeshNetworkLayer) (s s' : ReplState),
      Relation.ReflTransGen (ReplStep net) s s' →
      ∀ fid nid r, lookupReplica s fid nid = some r →
        ∃ r', lookupReplica s' fid nid = some r' ∧ r.version ≤ r'.version) ∧
    (∀ (s : ReplState) (fid w : String) (md : FileMetadata) (winning : CodeReplica),
      alookup s.files fid = some md → alookup md.replicas w = some winning →
      ∀ nid r, alookup md.replicas nid = some r →
        ∃ r', lookupReplica (resolve_conflict s fid w).1 fid nid = some r' ∧
          r'.version = if nid = w then r.version else winning.version + 1) := by
  constructor
  · intro net s s' h
    induction h with
    | refl => exact fun fid nid r hr => ⟨r, hr, le_refl _⟩
    | tail _ hstep ih =>
      intro fid nid r hr
      obtain ⟨r1, hr1, hv1⟩ := ih fid nid r hr
      obtain ⟨r2, hr2, hv2⟩ := replStep_version_mono hstep fid nid r1 hr1
      exact ⟨r2, hr2, le_trans hv1 hv2⟩
  · intro s fid w md winning hmd hw nid r hrw
    obtain ⟨ts, hts⟩ := resolveReplicas_lookup_some w winning s.clock hrw
    have hlk : lookupReplica (resolve_conflict s fid w).1 fid nid =
        some (if nid = w then r else
          { r with
              content := winning.content, hash := winning.hash,
              version := winning.version + 1, timestamp := ts }) := by
      simp only [resolve_conflict, hmd, hw, lookupReplica, alookup_aset_self,
        Option.bind_some]
      exact hts
    exact ⟨_, hlk, by by_cases hnw : nid = w <;> simp [hnw]⟩

/-- C3 witness: the monotonicity half applied to the concrete
register-then-replicate step, and the resolve half applied at the diverged
state `exRs2` (where it yields version 2 for node `a`). -/
theorem C3_version_semantics_witness :
    (∃ r', lookupReplica exRsRep "f1" "a" = some r' ∧ 1 ≤ r'.version) ∧
    (∃ r', lookupReplica (resolve_conflict exRs2 "f1" "b").1 "f1" "a" = some r' ∧
      r'.version = 2) := by
  constructor
  · have step : Relation.ReflTransGen (ReplStep exNet2) exRs1 exRsRep :=
      Relation.ReflTransGen.single ⟨ReplOp.replicateOp "f1" ["b"], rfl, rfl⟩
    obtain ⟨r', hr', hv⟩ :=
      C3_version_semantics.1 exNet2 exRs1 exRsRep step "f1" "a" _ rfl
    exact ⟨r', hr', hv⟩
  · obtain ⟨r', hr', hv⟩ :=
      C3_version_semantics.2 exRs2 "f1" "b" _ _ rfl rfl "a" _ rfl
    refine ⟨r', hr', ?_⟩
    rw [hv]
    decide

/-!  Claim C9 (confirmed).  The `SyncEvent` recorded by `sync_file`
carries `old_hash = new_hash`: `old_hash` is read via
`get_primary_replica()` only *after* all non-source replicas were
overwritten, so the freshest replica already carries the new hash.  -/

/-- Python `max` returns an element of the iterated collection. -/
theorem pyMaxByTs_mem (x : CodeReplica) (xs : List CodeReplica) :
    pyMaxByTs x xs ∈ x :: xs := by
  induction xs generalizing x with
  | nil => simp [pyMaxByTs]
  | cons y ys ih =>
    simp only [pyMaxByTs, List.foldl_cons]
    by_cases hxy : x.timestamp < y.timestamp
    · simp only [hxy, if_true]
      have := ih y
      simp only [pyMaxByTs] at this
      rcases List.mem_cons.mp this with hh | hh
      · rw [hh]; simp
      · simp [hh]
    · simp only [hxy, if_false]
      have := ih x
      simp only [pyMaxByTs] at this
      rcases List.mem_cons.mp this with hh | hh
      · rw [hh]; simp
      · simp [hh]

/-- Python `max` returns an element whose key is maximal. -/
theorem pyMaxByTs_max (x : CodeReplica) (xs : List CodeReplica) :
    ∀ y ∈ x :: xs, y.timestamp ≤ (pyMaxByTs x xs).timestamp := by
  induction xs generalizing x with
  | nil =>
    intro y hy
    rcases List.mem_cons.mp hy with hh | hh
    · rw [hh]; exact le_refl _
    · simp at hh
  | cons z zs ih =>
    intro y hy
    simp only [pyMaxByTs, List.foldl_cons]
    by_cases hxz : x.timestamp < z.timestamp
    · simp only [hxz, if_true]
      have hmax := ih z
      simp only [pyMaxByTs] at hmax
      rcases List.mem_cons.mp hy with hh | hh
      · rw [hh]
        exact le_trans (le_of_lt hxz) (hmax z (List.mem_cons_self _ _))
      · rcases List.mem_cons.mp hh with hh2 | hh2
        · rw [hh2]; exact hmax z (List.mem_cons_self _ _)
        · exact hmax y (List.mem_cons_of_mem _ hh2)
    · simp only [hxz, if_false]
      have hmax := ih x
      simp only [pyMaxByTs] at hmax
      rcases List.mem_cons.mp hy with hh | hh
      · rw [hh]; exact hmax x (List.mem_cons_self _ _)
      · rcases List.mem_cons.mp hh with hh2 | hh2
        · rw [hh2]
          exact le_trans (le_of_not_lt hxz) (hmax x (List.mem_cons_self _ _))
        · exact hmax y (List.mem_cons_of_mem _ hh2)

/-- C9: on a file with at least one replica held away from the source
node (and timestamps below the current clock, as every reachable state
has), a successful `sync_file` appends a `SyncEvent` whose `old_hash`
equals its `new_hash` — the pre-sync content hash is not preserved. -/
theorem C9_sync_event_old_hash_equals_new (s : ReplState)
    (fid content src : String) (md : FileMetadata)
    (hmd : alookup s.files fid = some md)
    (hts : ∀ kv ∈ md.replicas, kv.2.timestamp < s.clock)
    (hother : ∃ kv ∈ md.replicas, kv.1 ≠ src) :
    ∃ e, (sync_file s fid content src).1.sync_events = s.sync_events ++ [e] ∧
      e.new_hash = sha256_16 content ∧ e.old_hash = some (sha256_16 content) := by
  refine ⟨{
      event_id := "event_" ++
        toString (syncReplicas src content (sha256_16 content) md.replicas s.clock).2.2
      file_id := fid
      source_node := src
      target_nodes :=
        (syncReplicas src content (sha256_16 content) md.replicas s.clock).2.1
      timestamp :=
        (syncReplicas src content (sha256_16 content) md.replicas s.clock).2.2
      new_hash := sha256_16 content
      old_hash := (FileMetadata.get_primary_replica { md with
        replicas :=
          (syncReplicas src content (sha256_16 content) md.replicas s.clock).1 }).map
            (fun rep => rep.hash)
      success := true }, ?_, rfl, ?_⟩
  · simp only [sync_file, hmd]
  obtain ⟨kvu, hkvu, hkvune⟩ :=
    syncReplicas_exists_updated src content (sha256_16 content) md.replicas
      s.clock hother
  obtain ⟨hkvuh, hkvut⟩ :=
    syncReplicas_updated_entries src content (sha256_16 content) md.replicas
      s.clock kvu hkvu hkvune
  show (FileMetadata.get_primary_replica _).map (fun rep => rep.hash) =
    some (sha256_16 content)
  cases hl : (syncReplicas src content (sha256_16 content) md.replicas s.clock).1 with
  | nil => rw [hl] at hkvu; simp at hkvu
  | cons kv0 rest =>
    obtain ⟨k0, r0⟩ := kv0
    simp only [FileMetadata.get_primary_replica, Option.map]
    have hmem : pyMaxByTs r0 (rest.map Prod.snd) ∈ r0 :: rest.map Prod.snd :=
      pyMaxByTs_mem _ _
    have hmem' : pyMaxByTs r0 (rest.map Prod.snd) ∈
        ((k0, r0) :: rest).map Prod.snd := by
      simpa using hmem
    obtain ⟨kvm, hkvm, hkvmeq⟩ := List.mem_map.mp hmem'
    rw [← hl] at hkvm
    refine congrArg some ?_
    by_cases hsrc : kvm.1 = src
    · exfalso
      have hin : kvm ∈ md.replicas :=
        syncReplicas_source_entries src content (sha256_16 content) md.replicas
          s.clock kvm hkvm hsrc
      have hold : kvm.2.timestamp < s.clock := hts kvm hin
      have hle : kvu.2.timestamp ≤ (pyMaxByTs r0 (rest.map Prod.snd)).timestamp := by
        apply pyMaxByTs_max
        have : kvu.2 ∈ ((k0, r0) :: rest).map Prod.snd :=
          List.mem_map_of_mem Prod.snd (hl ▸ hkvu)
        simpa using this
      rw [← hkvmeq] at hle
      omega
    · obtain ⟨hh, -⟩ :=
        syncReplicas_updated_entries src content (sha256_16 content) md.replicas
          s.clock kvm hkvm hsrc
      rw [hkvmeq] at hh
      rw [hh]

/-- C9 witness: the theorem applied at the concrete replicated state
(`f1` on nodes `a` and `b`, synced from `a`). -/
theorem C9_sync_event_old_hash_equals_new_witness :
    ((∀ kv ∈ (fun md : FileMetadata => md.replicas)
        ((alookup exRsRep.files "f1").getD { file_id := "", path := "" }),
      kv.2.timestamp < exRsRep.clock) ∧
      (∃ kv ∈ (fun md : FileMetadata => md.replicas)
        ((alookup exRsRep.files "f1").getD { file_id := "", path := "" }),
        kv.1 ≠ "a")) ∧
    (∃ e, (sync_file exRsRep "f1" "x = 2" "a").1.sync_events =
        exRsRep.sync_events ++ [e] ∧
      e.new_hash = sha256_16 "x = 2" ∧ e.old_hash = some (sha256_16 "x = 2")) := by
  refine ⟨⟨by decide, by decide⟩, ?_⟩
  exact C9_sync_event_old_hash_equals_new exRsRep "f1" "x = 2" "a" _ rfl
    (by decide) (by decide)

/-!  Distance-order helper lemmas (`none` plays `float(inf)`).  -/

theorem optLe_refl (a : Option Nat) : optLe a a := by
  cases a <;> simp [optLe]

theorem optLe_trans {a b c : Option Nat} (h₁ : optLe a b) (h₂ : optLe b c) :
    optLe a c := by
  cases a <;> cases b <;> cases c <;> simp_all [optLe] 
  omega

theorem optLe_of_optLt_eq_false {a b : Option Nat} (h : optLt a b = false) :
    optLe b a := by
  cases a <;> cases b <;> simp_all [optLt, optLe]

theorem optLe_of_optLt {a b : Option Nat} (h : optLt a b = true) : optLe a b := by
  cases a <;> cases b <;> simp_all [optLt, optLe]
  omega

theorem optLe_some_none {a : Nat} : optLe (some a) none := by simp [optLe]

theorem optLe_none_elim {b : Nat} (h : optLe none (some b)) : False := by
  simp [optLe] at h

theorem optLe_some_some {a b : Nat} (h : optLe (some a) (some b)) : a ≤ b := h

/-!  Python `min(unvisited, key=distances.get)` lemmas.  -/

theorem pyMinKey_mem (d : String → Option Nat) (x : String) (xs : List String) :
    pyMinKey d x xs ∈ x :: xs := by
  induction xs generalizing x with
  | nil => simp [pyMinKey]
  | cons y ys ih =>
    simp only [pyMinKey, List.foldl_cons]
    by_cases hxy : optLt (d y) (d x) = true
    · simp only [hxy, if_true]
      have := ih y
      simp only [pyMinKey] at this
      rcases List.mem_cons.mp this with hh | hh
      · rw [hh]; simp
      · simp [hh]
    · simp only [Bool.not_eq_true] at hxy
      simp only [hxy, Bool.false_eq_true, if_false]
      have := ih x
      simp only [pyMinKey] at this
      rcases List.mem_cons.mp this with hh | hh
      · rw [hh]; simp
      · simp [hh]

theorem pyMinKey_min (d : String → Option Nat) (x : String) (xs : List String) :
    ∀ y ∈ x :: xs, optLe (d (pyMinKey d x xs)) (d y) := by
  induction xs generalizing x with
  | nil =>
    intro y hy
    rcases List.mem_cons.mp hy with hh | hh
    · rw [hh]; exact optLe_refl _
    · simp at hh
  | cons z zs ih =>
    intro y hy
    simp only [pyMinKey, List.foldl_cons]
    by_cases hxz : optLt (d z) (d x) = true
    · simp only [hxz, if_true]
      have hmin := ih z
      simp only [pyMinKey] at hmin
      rcases List.mem_cons.mp hy with hh | hh
      · rw [hh]
        exact optLe_trans (hmin z (List.mem_cons_self _ _)) (optLe_of_optLt hxz)
      · rcases List.mem_cons.mp hh with hh2 | hh2
        · rw [hh2]; exact hmin z (List.mem_cons_self _ _)
        · exact hmin y (List.mem_cons_of_mem _ hh2)
    · simp only [Bool.not_eq_true] at hxz
      simp only [hxz, Bool.false_eq_true, if_false]
      have hmin := ih x
      simp only [pyMinKey] at hmin
      rcases List.mem_cons.mp hy with hh | hh
      · rw [hh]; exact hmin x (List.mem_cons_self _ _)
      · rcases List.mem_cons.mp hh with hh2 | hh2
        · rw [hh2]
          exact optLe_trans (hmin x (List.mem_cons_self _ _))
            (optLe_of_optLt_eq_false hxz)
        · exact hmin y (List.mem_cons_of_mem _ hh2)

/-!  Walk lemmas.  -/

theorem IsWalk.ne_nil {net : MeshNetworkLayer} {a b : String} {q : List String}
    (h : IsWalk net a b q) : q ≠ [] := by
  cases h with
  | single => simp
  | snoc b c q' hw hadj => simp

theorem IsWalk.head_eq {net : MeshNetworkLayer} {a b : String} {q : List String}
    (h : IsWalk net a b q) : q.head? = some a := by
  induction h with
  | single => rfl
  | snoc b c q' hw hadj ih =>
    rw [List.head?_append, ih]
    rfl

theorem IsWalk.getLast_eq {net : MeshNetworkLayer} {a b : String} {q : List String}
    (h : IsWalk net a b q) : q.getLast? = some b := by
  cases h with
  | single => rfl
  | snoc b c q' hw hadj => exact List.getLast?_concat _

theorem walkCost_concat (net : MeshNetworkLayer) {q : List String} {b : String}
    (hq : q.getLast? = some b) (c : String) :
    walkCost net (q ++ [c]) = walkCost net q + latOf net b c := by
  induction q with
  | nil => simp at hq
  | cons a q' ih =>
    cases q' with
    | nil =>
      simp only [List.getLast?_singleton, Option.some.injEq] at hq
      subst hq
      simp [walkCost]
    | cons a' q'' =>
      have hq' : (a' :: q'').getLast? = some b := by
        rw [List.getLast?_cons_cons] at hq
        exact hq
      have hIH := ih hq'
      simp only [List.cons_append, List.append_eq, walkCost] at hIH ⊢
      omega

theorem IsWalk.validPath {net : MeshNetworkLayer} {a b : String} {q : List String}
    (h : IsWalk net a b q) : ValidPath net a b q := by
  induction h with
  | single => exact ⟨rfl, rfl, List.chain'_singleton _⟩
  | snoc b c q' hw hadj ih =>
    obtain ⟨hh, hl, hc⟩ := ih
    refine ⟨?_, List.getLast?_concat _, ?_⟩
    · rw [List.head?_append, hh]; rfl
    · refine List.Chain'.append hc (List.chain'_singleton c) ?_
      intro x hx y hy
      rw [hl] at hx
      cases hx
      cases hy
      exact hadj

theorem validPath_isWalk {net : MeshNetworkLayer} {q : List String} :
    ∀ {a b : String}, ValidPath net a b q → IsWalk net a b q := by
  induction q using List.reverseRecOn with
  | nil =>
    intro a b h
    obtain ⟨hh, -, -⟩ := h
    simp at hh
  | append_singleton q' c ih =>
    intro a b h
    obtain ⟨hh, hl, hc⟩ := h
    rw [List.getLast?_concat] at hl
    cases hl
    by_cases hq'ne : q' = []
    · subst hq'ne
      simp only [List.nil_append, List.head?_cons, Option.some.injEq] at hh
      subst hh
      exact IsWalk.single _
    · obtain ⟨hc1, -, hc3⟩ := List.chain'_append.mp hc
      have hh' : q'.head? = some a := by
        rw [List.head?_append] at hh
        cases hq2 : q' with
        | nil => exact absurd hq2 hq'ne
        | cons z zs =>
          rw [hq2] at hh
          simpa using hh
      have hlast : q'.getLast? = some (q'.getLast hq'ne) :=
        List.getLast?_eq_getLast _ _
      have hwalk : IsWalk net a (q'.getLast hq'ne) q' :=
        ih ⟨hh', hlast, hc1⟩
      have hadj : c ∈ adjOf net (q'.getLast hq'ne) := hc3 _ hlast c rfl
      exact IsWalk.snoc _ _ _ _ hwalk hadj

theorem adj_mem_keys {net : MeshNetworkLayer} (hwf : NetWf net) {v u : String}
    (h : u ∈ adjOf net v) : u ∈ nodeKeys net := by
  unfold adjOf at h
  cases hl : alookup net.node_graph v with
  | none => rw [hl] at h; simp at h
  | some l =>
    rw [hl] at h
    exact hwf.2.2 (v, l) (alookup_mem hl) u h

theorem walk_mem_keys {net : MeshNetworkLayer} (hwf : NetWf net) {a b : String}
    {q : List String} (h : IsWalk net a b q) (ha : a ∈ nodeKeys net) :
    ∀ x ∈ q, x ∈ nodeKeys net := by
  induction h with
  | single => intro x hx; rcases List.mem_singleton.mp hx with rfl; exact ha
  | snoc b c q' hw hadj ih =>
    intro x hx
    rcases List.mem_append.mp hx with hx | hx
    · exact ih x hx
    · rcases List.mem_singleton.mp hx with rfl
      exact adj_mem_keys hwf hadj

/-!  `previous`-chain lemmas.  -/

theorem traces_congr {p p' : String → Option String} {n : String} {tr : List String}
    (h : Traces p n tr) (hsame : ∀ x ∈ tr, p' x = p x) : Traces p' n tr := by
  induction h with
  | stop n hn =>
    exact Traces.stop n ((hsame n (List.mem_singleton_self n)).trans hn)
  | step n c tr hn hc ih =>
    refine Traces.step n c tr ?_ ?_
    · rw [hsame n (by simp)]
      exact hn
    · exact ih (fun x hx => hsame x (by simp [hx]))

theorem traces_followPrev {p : String → Option String} {n : String}
    {tr : List String} (h : Traces p n tr) :
    ∀ fuel, tr.length ≤ fuel → followPrev p fuel (some n) = tr.reverse := by
  induction h with
  | stop n hn =>
    intro fuel hfuel
    cases fuel with
    | zero => simp at hfuel
    | succ f =>
      simp only [followPrev, hn]
      rfl
  | step n c tr hn hc ih =>
    intro fuel hfuel
    cases fuel with
    | zero => simp at hfuel
    | succ f =>
      simp only [followPrev, hn]
      rw [ih f (by simp at hfuel; omega)]
      simp

/-!  Relaxation-loop lemmas.  -/

theorem adjOf_nodup {net : MeshNetworkLayer} (hwf : NetWf net) (a : String) :
    (adjOf net a).Nodup := by
  unfold adjOf
  cases hl : alookup net.node_graph a with
  | none => simp
  | some l => exact hwf.2.1 (a, l) (alookup_mem hl)

theorem relaxList_untouched (net : MeshNetworkLayer) (current : String) (dc : Nat)
    (U : List String) (l : List String) :
    ∀ (d : String → Option Nat) (p : String → Option String) (n : String), n ∉ l →
      (relaxList net current dc U l d p).1 n = d n ∧
      (relaxList net current dc U l d p).2 n = p n := by
  induction l with
  | nil => intro d p n _; exact ⟨rfl, rfl⟩
  | cons nb rest ih =>
    intro d p n hn
    have hn1 : n ≠ nb := fun hh => hn (hh ▸ List.mem_cons_self _ _)
    have hn2 : n ∉ rest := fun hh => hn (List.mem_cons_of_mem _ hh)
    by_cases hU : nb ∈ U
    · by_cases hlt : optLt (some (dc + latOf net current nb)) (d nb) = true
      · simp only [relaxList, hU, if_true, hlt]
        obtain ⟨h1, h2⟩ := ih _ _ n hn2
        rw [h1, h2]
        simp [hn1]
      · simp only [Bool.not_eq_true] at hlt
        simp only [relaxList, hU, if_true, hlt, Bool.false_eq_true, if_false]
        exact ih _ _ n hn2
    · simp only [relaxList, hU, if_false]
      exact ih _ _ n hn2

theorem relaxList_le (net : MeshNetworkLayer) (current : String) (dc : Nat)
    (U : List String) (l : List String) :
    ∀ (d : String → Option Nat) (p : String → Option String) (n : String),
      optLe ((relaxList net current dc U l d p).1 n) (d n) := by
  induction l with
  | nil => intro d p n; exact optLe_refl _
  | cons nb rest ih =>
    intro d p n
    by_cases hU : nb ∈ U
    · by_cases hlt : optLt (some (dc + latOf net current nb)) (d nb) = true
      · simp only [relaxList, hU, if_true, hlt]
        refine optLe_trans (ih _ _ n) ?_
        by_cases hn : n = nb
        · subst hn
          simp only [if_pos rfl]
          exact optLe_of_optLt hlt
        · simp only [hn, if_false]
          exact optLe_refl _
      · simp only [Bool.not_eq_true] at hlt
        simp only [relaxList, hU, if_true, hlt, Bool.false_eq_true, if_false]
        exact ih _ _ n
    · simp only [relaxList, hU, if_false]
      exact ih _ _ n

theorem relaxList_char_updated (net : MeshNetworkLayer) (current : String) (dc : Nat)
    (U : List String) {l : List String} (hnodup : l.Nodup) :
    ∀ (d : String → Option Nat) (p : String → Option String) (nb : String),
      nb ∈ l → nb ∈ U → optLt (some (dc + latOf net current nb)) (d nb) = true →
      (relaxList net current dc U l d p).1 nb = some (dc + latOf net current nb) ∧
      (relaxList net current dc U l d p).2 nb = some current := by
  induction l with
  | nil => intro d p nb hnb; simp at hnb
  | cons x rest ih =>
    intro d p nb hnb hU hlt
    have hx : x ∉ rest := (List.nodup_cons.mp hnodup).1
    have hrest : rest.Nodup := (List.nodup_cons.mp hnodup).2
    rcases List.mem_cons.mp hnb with rfl | hnb'
    · simp only [relaxList, hU, if_true, hlt]
      obtain ⟨h1, h2⟩ := relaxList_untouched net current dc U rest _ _ nb hx
      rw [h1, h2]
      simp
    · have hne : nb ≠ x := fun hh => hx (hh ▸ hnb')
      by_cases hxU : x ∈ U
      · by_cases hxlt : optLt (some (dc + latOf net current x)) (d x) = true
        · simp only [relaxList, hxU, if_true, hxlt]
          refine ih hrest _ _ nb hnb' hU ?_
          simp only [hne, if_false]
          exact hlt
        · simp only [Bool.not_eq_true] at hxlt
          simp only [relaxList, hxU, if_true, hxlt, Bool.false_eq_true, if_false]
          exact ih hrest _ _ nb hnb' hU hlt
      · simp only [relaxList, hxU, if_false]
        exact ih hrest _ _ nb hnb' hU hlt

theorem relaxList_char_same (net : MeshNetworkLayer) (current : String) (dc : Nat)
    (U : List String) {l : List String} (hnodup : l.Nodup) :
    ∀ (d : String → Option Nat) (p : String → Option String) (nb : String),
      nb ∈ l →
      (nb ∉ U ∨ optLt (some (dc + latOf net current nb)) (d nb) = false) →
      (relaxList net current dc U l d p).1 nb = d nb ∧
      (relaxList net current dc U l d p).2 nb = p nb := by
  induction l with
  | nil => intro d p nb hnb; simp at hnb
  | cons x rest ih =>
    intro d p nb hnb hcond
    have hx : x ∉ rest := (List.nodup_cons.mp hnodup).1
    have hrest : rest.Nodup := (List.nodup_cons.mp hnodup).2
    rcases List.mem_cons.mp hnb with rfl | hnb'
    · rcases hcond with hcond | hcond
      · simp only [relaxList, hcond, if_false]
        exact relaxList_untouched net current dc U rest _ _ nb hx
      · by_cases hU : nb ∈ U
        · simp only [relaxList, hU, if_true, hcond, Bool.false_eq_true, if_false]
          exact relaxList_untouched net current dc U rest _ _ nb hx
        · simp only [relaxList, hU, if_false]
          exact relaxList_untouched net current dc U rest _ _ nb hx
    · have hne : nb ≠ x := fun hh => hx (hh ▸ hnb')
      by_cases hxU : x ∈ U
      · by_cases hxlt : optLt (some (dc + latOf net current x)) (d x) = true
        · simp only [relaxList, hxU, if_true, hxlt]
          have := ih hrest
            (fun n => if n = x then some (dc + latOf net current x) else d n)
            (fun n => if n = x then some current else p n) nb hnb' ?_
          · obtain ⟨h1, h2⟩ := this
            rw [h1, h2]
            simp [hne]
          · rcases hcond with hcond | hcond
            · exact Or.inl hcond
            · refine Or.inr ?_
              simp only [hne, if_false]
              exact hcond
        · simp only [Bool.not_eq_true] at hxlt
          simp only [relaxList, hxU, if_true, hxlt, Bool.false_eq_true, if_false]
          exact ih hrest _ _ nb hnb' hcond
      · simp only [relaxList, hxU, if_false]
        exact ih hrest _ _ nb hnb' hcond

theorem mem_dropLast_or_getLast {l : List String} (hne : l ≠ []) {x : String}
    (hx : x ∈ l) : x ∈ l.dropLast ∨ x = l.getLast hne := by
  conv at hx => rw [← List.dropLast_append_getLast hne]
  rcases List.mem_append.mp hx with h | h
  · exact Or.inl h
  · exact Or.inr (List.mem_singleton.mp h)

theorem IsWalk.getLast_val {net : MeshNetworkLayer} {a b : String} {q : List String}
    (h : IsWalk net a b q) (hne : q ≠ []) : q.getLast hne = b := by
  have h1 := h.getLast_eq
  rw [List.getLast?_eq_getLast q hne] at h1
  exact Option.some.inj h1

theorem relaxList_relaxInv (net : MeshNetworkLayer) (source current : String)
    (dc : Nat) (U : List String) {l : List String}
    (hl : ∀ x ∈ l, x ∈ adjOf net current) (hU : ∀ x ∈ U, x ∈ nodeKeys net) :
    ∀ (d : String → Option Nat) (p : String → Option String),
      RelaxInv net source current dc U d p →
      RelaxInv net source current dc U (relaxList net current dc U l d p).1
        (relaxList net current dc U l d p).2 := by
  induction l with
  | nil => intro d p inv; exact inv
  | cons nb rest ih =>
    intro d p inv
    have hadj : nb ∈ adjOf net current := hl nb (List.mem_cons_self _ _)
    have hl' : ∀ x ∈ rest, x ∈ adjOf net current :=
      fun x hx => hl x (List.mem_cons_of_mem _ hx)
    by_cases hbU : nb ∈ U
    · by_cases hlt : optLt (some (dc + latOf net current nb)) (d nb) = true
      · have hbc : nb ≠ current := by
          intro hh
          rw [hh, inv.dcur] at hlt
          simp only [optLt, decide_eq_true_eq] at hlt
          omega
        have hbs : nb ≠ source := by
          intro hh
          rw [hh, inv.dsrc] at hlt
          simp only [optLt, decide_eq_true_eq] at hlt
          omega
        simp only [relaxList, hbU, if_true, hlt]
        refine ih hl' _ _ ?_
        constructor
        · show (if source = nb then some (dc + latOf net current nb) else d source) =
            some 0
          rw [if_neg (fun hh : source = nb => hbs hh.symm)]
          exact inv.dsrc
        · show (if source = nb then some current else p source) = none
          rw [if_neg (fun hh : source = nb => hbs hh.symm)]
          exact inv.psrc
        · show (if current = nb then some (dc + latOf net current nb) else d current) =
            some dc
          rw [if_neg (fun hh : current = nb => hbc hh.symm)]
          exact inv.dcur
        · intro n c hc
          simp only at hc ⊢
          by_cases hn : n = nb
          · simp [hn]
          · rw [if_neg hn] at hc ⊢
            exact inv.pd n c hc
        · intro n dn hdn
          simp only at hdn
          by_cases hn : n = nb
          · subst hn
            rw [if_pos rfl] at hdn
            cases hdn
            obtain ⟨tr, htr, hwalk, hcost, hnodup, hkeys, hdrop⟩ :=
              inv.trace current dc inv.dcur
            have hne : tr ≠ [] := hwalk.ne_nil
            have hnotin : n ∉ tr := by
              intro hin
              rcases mem_dropLast_or_getLast hne hin with hin' | hin'
              · rcases hdrop n hin' with hh | hh
                · exact hh hbU
                · exact hbc hh
              · rw [hwalk.getLast_val hne] at hin'
                exact hbc hin'
            refine ⟨tr ++ [n], ?_, ?_, ?_, ?_, ?_, ?_⟩
            · refine Traces.step n current tr (by simp) ?_
              refine traces_congr htr ?_
              intro x hx
              rw [if_neg (fun hh : x = n => hnotin (hh ▸ hx))]
            · exact IsWalk.snoc _ _ _ _ hwalk hadj
            · rw [walkCost_concat net hwalk.getLast_eq]
              rw [hcost]
            · simp only [List.nodup_append, List.nodup_singleton]
              refine ⟨hnodup, trivial, ?_⟩
              intro x hx hx'
              rw [List.mem_singleton.mp hx'] at hx
              exact hnotin hx
            · intro x hx
              rcases List.mem_append.mp hx with hx | hx
              · exact hkeys x hx
              · rw [List.mem_singleton.mp hx]
                exact hU n hbU
            · rw [List.dropLast_concat]
              intro x hx
              rcases mem_dropLast_or_getLast hne hx with hx' | hx'
              · exact hdrop x hx'
              · rw [hwalk.getLast_val hne] at hx'
                exact Or.inr hx'
          · rw [if_neg hn] at hdn
            obtain ⟨tr, htr, hwalk, hcost, hnodup, hkeys, hdrop⟩ :=
              inv.trace n dn hdn
            have hne : tr ≠ [] := hwalk.ne_nil
            have hnotin : nb ∉ tr := by
              intro hin
              rcases mem_dropLast_or_getLast hne hin with hin' | hin'
              · rcases hdrop nb hin' with hh | hh
                · exact hh hbU
                · exact hbc hh
              · rw [hwalk.getLast_val hne] at hin'
                exact hn hin'.symm
            refine ⟨tr, ?_, hwalk, hcost, hnodup, hkeys, hdrop⟩
            refine traces_congr htr ?_
            intro x hx
            rw [if_neg (fun hh : x = nb => hnotin (hh ▸ hx))]
      · simp only [Bool.not_eq_true] at hlt
        simp only [relaxList, hbU, if_true, hlt, Bool.false_eq_true, if_false]
        exact ih hl' _ _ inv
    · simp only [relaxList, hbU, if_false]
      exact ih hl' _ _ inv

/-- Frontier covering: any walk from the (settled) source to an unvisited
node passes some unvisited node whose tentative distance bounds the walk's
cost from below. -/
theorem dijkstra_cover {net : MeshNetworkLayer} {source target : String}
    {U : List String} {d : String → Option Nat} {p : String → Option String}
    (hwf : NetWf net) (inv : DInv net source target U d p) :
    ∀ {n : String} {q : List String}, IsWalk net source n q → n ∈ U →
      ∃ u ∈ U, ∃ du, d u = some du ∧ du ≤ walkCost net q := by
  intro n q hq
  induction hq with
  | single => intro hn; exact absurd hn inv.srcS
  | snoc b c q' hw hadj ih =>
    intro hc
    rw [walkCost_concat net hw.getLast_eq]
    by_cases hb : b ∈ U
    · obtain ⟨u, hu, du, hdu, hle⟩ := ih hb
      exact ⟨u, hu, du, hdu, le_trans hle (Nat.le_add_right _ _)⟩
    · have hbkeys : b ∈ nodeKeys net := by
        refine walk_mem_keys hwf hw inv.srcK b ?_
        have := hw.getLast_eq
        cases hql : q' with
        | nil => rw [hql] at this; simp at this
        | cons z zs =>
          rw [← hql]
          have hne : q' ≠ [] := by rw [hql]; simp
          have := hw.getLast_val hne
          rw [← this]
          exact List.getLast_mem hne
      obtain ⟨db, hdb⟩ := Option.isSome_iff_exists.mp (inv.settled_some b hbkeys hb)
      have hmin := inv.settled_min b hbkeys hb q' hw db hdb
      obtain ⟨du, hdu, hle⟩ := inv.frontier b hbkeys hb c hadj db hdb
      exact ⟨c, hc, du, hdu, le_trans hle (Nat.add_le_add_right hmin _)⟩

/-- Settling the minimum: when `current` is popped, its tentative distance
bounds the cost of every walk from the source to it. -/
theorem dijkstra_pop_min {net : MeshNetworkLayer} {source target : String}
    {x : String} {xs : List String} {d : String → Option Nat}
    {p : String → Option String} {dc : Nat}
    (hwf : NetWf net) (inv : DInv net source target (x :: xs) d p)
    (hdc : d (pyMinKey d x xs) = some dc) (hcur : pyMinKey d x xs ∈ x :: xs) :
    ∀ q, IsWalk net source (pyMinKey d x xs) q → dc ≤ walkCost net q := by
  intro q hq
  obtain ⟨u, hu, du, hdu, hle⟩ := dijkstra_cover hwf inv hq hcur
  have hmin := pyMinKey_min d x xs u hu
  rw [hdc, hdu] at hmin
  exact le_trans (optLe_some_some hmin) hle

/-- One Dijkstra iteration (pop + relax + erase) preserves the loop
invariant, provided the popped node is not the target. -/
theorem dijkstra_step_inv {net : MeshNetworkLayer} {source target : String}
    {x : String} {xs : List String} {d : String → Option Nat}
    {p : String → Option String} {dc : Nat}
    (hwf : NetWf net) (inv : DInv net source target (x :: xs) d p)
    (hdc : d (pyMinKey d x xs) = some dc) (hct : pyMinKey d x xs ≠ target) :
    DInv net source target ((x :: xs).erase (pyMinKey d x xs))
      (relaxList net (pyMinKey d x xs) dc (x :: xs)
        (adjOf net (pyMinKey d x xs)) d p).1
      (relaxList net (pyMinKey d x xs) dc (x :: xs)
        (adjOf net (pyMinKey d x xs)) d p).2 := by
  set current := pyMinKey d x xs with hcurdef
  have hcurmem : current ∈ x :: xs := pyMinKey_mem d x xs
  have hUnodup : (x :: xs).Nodup := List.Nodup.sublist inv.sub hwf.1
  have hUkeys : ∀ y ∈ x :: xs, y ∈ nodeKeys net := fun y hy => inv.sub.subset hy
  have hadjnodup : (adjOf net current).Nodup := adjOf_nodup hwf current
  have hcurkeys : current ∈ nodeKeys net := hUkeys current hcurmem
  -- the relaxed maps
  set d1 := (relaxList net current dc (x :: xs) (adjOf net current) d p).1 with hd1
  set p1 := (relaxList net current dc (x :: xs) (adjOf net current) d p).2 with hp1
  -- membership facts about the erased set
  have hmem_erase : ∀ {y : String}, y ∈ (x :: xs).erase current ↔
      y ≠ current ∧ y ∈ x :: xs := fun {y} => hUnodup.mem_erase_iff
  -- nodes outside the old unvisited set are untouched by the relaxation
  have huntouched : ∀ y, y ∉ (x :: xs) → d1 y = d y ∧ p1 y = p y := by
    intro y hy
    by_cases hya : y ∈ adjOf net current
    · exact relaxList_char_same net current dc (x :: xs) hadjnodup d p y hya
        (Or.inl hy)
    · exact relaxList_untouched net current dc (x :: xs) _ d p y hya
  -- the popped node itself is untouched
  have hcurnt : d1 current = d current ∧ p1 current = p current := by
    by_cases hya : current ∈ adjOf net current
    · refine relaxList_char_same net current dc (x :: xs) hadjnodup d p current hya
        (Or.inr ?_)
      rw [hdc]
      simp only [optLt, decide_eq_false_iff_not]
      omega
    · exact relaxList_untouched net current dc (x :: xs) _ d p current hya
  -- likewise the source
  have hsrcnt : d1 source = d source ∧ p1 source = p source := by
    by_cases hya : source ∈ adjOf net current
    · refine relaxList_char_same net current dc (x :: xs) hadjnodup d p source hya
        (Or.inr ?_)
      rw [inv.dsrc]
      simp only [optLt, decide_eq_false_iff_not]
      omega
    · exact relaxList_untouched net current dc (x :: xs) _ d p source hya
  -- tentative distances only decrease
  have hle : ∀ y, optLe (d1 y) (d y) :=
    fun y => relaxList_le net current dc (x :: xs) _ d p y
  -- the relaxation effect on current's neighbours
  have hrelax : ∀ u ∈ adjOf net current, u ∈ x :: xs →
      ∃ du, d1 u = some du ∧ du ≤ dc + latOf net current u := by
    intro u hu huU
    by_cases hlt : optLt (some (dc + latOf net current u)) (d u) = true
    · obtain ⟨h1, -⟩ :=
        relaxList_char_updated net current dc (x :: xs) hadjnodup d p u hu huU hlt
      exact ⟨_, h1, le_refl _⟩
    · simp only [Bool.not_eq_true] at hlt
      obtain ⟨h1, -⟩ :=
        relaxList_char_same net current dc (x :: xs) hadjnodup d p u hu
          (Or.inr hlt)
      have := optLe_of_optLt_eq_false hlt
      cases hdu : d u with
      | none => rw [hdu] at this; exact absurd this (by simp [optLe])
      | some du =>
        rw [hdu] at this
        refine ⟨du, ?_, optLe_some_some this⟩
        rw [hd1, h1, hdu]
  -- the relaxation invariant transported through the loop
  have hrinv : RelaxInv net source current dc (x :: xs) d1 p1 := by
    refine relaxList_relaxInv net source current dc (x :: xs)
      (fun y hy => hy) hUkeys d p ?_
    refine ⟨inv.dsrc, inv.psrc, hdc, inv.pd, ?_⟩
    intro n dn hdn
    obtain ⟨tr, htr, hwalk, hcost, hnodup, hkeys, hdrop⟩ := inv.trace n dn hdn
    exact ⟨tr, htr, hwalk, hcost, hnodup, hkeys, fun y hy => Or.inl (hdrop y hy)⟩
  constructor
  · exact List.Sublist.trans (List.erase_sublist _ _) inv.sub
  · exact hmem_erase.mpr ⟨fun hh => hct hh.symm, inv.tgtU⟩
  · intro hh
    exact inv.srcS (List.mem_of_mem_erase hh)
  · exact inv.srcK
  · rw [hsrcnt.1]; exact inv.dsrc
  · rw [hsrcnt.2]; exact inv.psrc
  · -- settled_some
    intro v hv hvU
    by_cases hvold : v ∈ x :: xs
    · have hvc : v = current := by
        by_contra hvc
        exact hvU (hmem_erase.mpr ⟨hvc, hvold⟩)
      rw [hvc, hcurnt.1, hdc]
      rfl
    · rw [(huntouched v hvold).1]
      exact inv.settled_some v hv hvold
  · -- settled_min
    intro v hv hvU q hq dv hdv
    by_cases hvold : v ∈ x :: xs
    · have hvc : v = current := by
        by_contra hvc
        exact hvU (hmem_erase.mpr ⟨hvc, hvold⟩)
      subst hvc
      rw [hcurnt.1, hdc] at hdv
      cases hdv
      exact dijkstra_pop_min hwf inv hdc hcurmem q hq
    · rw [(huntouched v hvold).1] at hdv
      exact inv.settled_min v hv hvold q hq dv hdv
  · -- frontier
    intro v hv hvU u hu dv hdv
    by_cases hvold : v ∈ x :: xs
    · have hvc : v = current := by
        by_contra hvc
        exact hvU (hmem_erase.mpr ⟨hvc, hvold⟩)
      subst hvc
      rw [hcurnt.1, hdc] at hdv
      cases hdv
      by_cases huU : u ∈ x :: xs
      · exact hrelax u hu huU
      · have hukeys : u ∈ nodeKeys net := adj_mem_keys hwf hu
        obtain ⟨du, hdu⟩ :=
          Option.isSome_iff_exists.mp (inv.settled_some u hukeys huU)
        have hmono := inv.mono u hukeys huU current hcurmem
        rw [hdu, hdc] at hmono
        refine ⟨du, ?_, ?_⟩
        · rw [(huntouched u huU).1]; exact hdu
        · exact le_trans (optLe_some_some hmono) (Nat.le_add_right _ _)
    · rw [(huntouched v hvold).1] at hdv
      obtain ⟨du, hdu, hdule⟩ := inv.frontier v hv hvold u hu dv hdv
      have := hle u
      rw [hdu] at this
      cases hd1u : d1 u with
      | none => rw [hd1u] at this; exact absurd this (by simp [optLe])
      | some du' =>
        rw [hd1u] at this
        exact ⟨du', rfl, le_trans (optLe_some_some this) hdule⟩
  · -- mono
    intro v hv hvU u huU'
    have huU : u ∈ x :: xs := List.mem_of_mem_erase huU'
    have hune : u ≠ current := (hmem_erase.mp huU').1
    have hd1u : d1 u = d u ∨
        ∃ du, d1 u = some du ∧ du ≤ dc + latOf net current u ∧ dc ≤ du := by
      by_cases hua : u ∈ adjOf net current
      · by_cases hlt : optLt (some (dc + latOf net current u)) (d u) = true
        · obtain ⟨h1, -⟩ := relaxList_char_updated net current dc (x :: xs)
            hadjnodup d p u hua huU hlt
          exact Or.inr ⟨_, h1, le_refl _, Nat.le_add_right _ _⟩
        · simp only [Bool.not_eq_true] at hlt
          exact Or.inl (relaxList_char_same net current dc (x :: xs)
            hadjnodup d p u hua (Or.inr hlt)).1
      · exact Or.inl (relaxList_untouched net current dc (x :: xs) _ d p u hua).1
    by_cases hvold : v ∈ x :: xs
    · have hvc : v = current := by
        by_contra hvc
        exact hvU (hmem_erase.mpr ⟨hvc, hvold⟩)
      subst hvc
      rw [hcurnt.1, hdc]
      rcases hd1u with hh | ⟨du, hdu, -, hdc_le⟩
      · rw [hh]
        have := pyMinKey_min d x xs u huU
        rw [hdc] at this
        exact this
      · rw [hdu]
        exact hdc_le
    · rw [(huntouched v hvold).1]
      rcases hd1u with hh | ⟨du, hdu, -, hdc_le⟩
      · rw [hh]
        exact inv.mono v hv hvold u huU
      · have hmono := inv.mono v hv hvold current hcurmem
        rw [hdc] at hmono
        obtain ⟨dv, hdv⟩ :=
          Option.isSome_iff_exists.mp (inv.settled_some v hv hvold)
        rw [hdv] at hmono ⊢
        rw [hdu]
        exact le_trans (optLe_some_some hmono) hdc_le
  · -- trace
    intro n dn hdn
    obtain ⟨tr, htr, hwalk, hcost, hnodup, hkeys, hdrop⟩ := hrinv.trace n dn hdn
    refine ⟨tr, htr, hwalk, hcost, hnodup, hkeys, ?_⟩
    intro y hy
    rcases hdrop y hy with hh | hh
    · intro hmem
      exact hh (List.mem_of_mem_erase hmem)
    · rw [hh]
      intro hmem
      exact (hmem_erase.mp hmem).1 rfl
  · exact hrinv.pd

/-- The Dijkstra main loop, run with enough fuel from any state satisfying
the loop invariant, ends in a state satisfying `DijkOut`. -/
theorem dijkstraLoop_out {net : MeshNetworkLayer} {source target : String}
    (hwf : NetWf net) :
    ∀ (fuel : Nat) (U : List String) (d : String → Option Nat)
      (p : String → Option String), DInv net source target U d p →
      U.length ≤ fuel →
      DijkOut net source target (dijkstraLoop net target fuel d p U).1
        (dijkstraLoop net target fuel d p U).2 := by
  intro fuel
  induction fuel with
  | zero =>
    intro U d p inv hlen
    have : U = [] := List.length_eq_zero.mp (Nat.le_zero.mp hlen)
    rw [this] at inv
    exact absurd inv.tgtU (by simp)
  | succ fuel ih =>
    intro U d p inv hlen
    cases U with
    | nil => exact absurd inv.tgtU (by simp)
    | cons x xs =>
      simp only [dijkstraLoop]
      cases hdc : d (pyMinKey d x xs) with
      | none =>
        -- the minimum is at infinite distance: the loop stops here
        refine ⟨?_, inv.pd, ?_⟩
        · intro n dn hdn
          obtain ⟨tr, htr, hwalk, hcost, hnodup, hkeys, -⟩ := inv.trace n dn hdn
          exact ⟨tr, htr, hwalk, hcost, hnodup, hkeys⟩
        · intro hreach
          exfalso
          obtain ⟨q, hq⟩ := hreach
          obtain ⟨u, hu, du, hdu, -⟩ :=
            dijkstra_cover hwf inv (validPath_isWalk hq) inv.tgtU
          have := pyMinKey_min d x xs u hu
          rw [hdc, hdu] at this
          exact optLe_none_elim this
      | some dc =>
        by_cases hct : pyMinKey d x xs = target
        · -- the target is settled: the loop stops here
          simp only [hct, if_pos rfl]
          refine ⟨?_, inv.pd, ?_⟩
          · intro n dn hdn
            obtain ⟨tr, htr, hwalk, hcost, hnodup, hkeys, -⟩ := inv.trace n dn hdn
            exact ⟨tr, htr, hwalk, hcost, hnodup, hkeys⟩
          · intro _
            refine ⟨dc, by rw [← hct]; exact hdc, ?_⟩
            intro q hq
            have := dijkstra_pop_min hwf inv hdc (pyMinKey_mem d x xs) q
            rw [hct] at this
            exact this hq
        · simp only [hct, if_neg, if_false]
          have hstep := dijkstra_step_inv hwf inv hdc hct
          have hcurmem : pyMinKey d x xs ∈ x :: xs := pyMinKey_mem d x xs
          have hlen' : ((x :: xs).erase (pyMinKey d x xs)).length ≤ fuel := by
            rw [List.length_erase_of_mem hcurmem]
            simp only [List.length_cons] at hlen ⊢
            omega
          exact ih _ _ _ hstep hlen'

theorem optLe_some_zero (a : Option Nat) : optLe (some 0) a := by
  cases a <;> simp [optLe]

/-- On the initial distance map the first node popped is the source. -/
theorem dijkstra_first_pop {source x : String} {xs : List String}
    (hs : source ∈ x :: xs) :
    pyMinKey (fun n => if n = source then some 0 else none) x xs = source := by
  set d0 : String → Option Nat := fun n => if n = source then some 0 else none
    with hd0
  by_contra hne
  have hmin := pyMinKey_min d0 x xs source hs
  have hcur : d0 (pyMinKey d0 x xs) = none := by
    rw [hd0]
    simp only [hne, if_false]
  have hsrc : d0 source = some 0 := by rw [hd0]; simp
  rw [hcur, hsrc] at hmin
  exact optLe_none_elim hmin

/-- After the first iteration (settling the source) the loop invariant
holds. -/
theorem dijkstra_first_inv {net : MeshNetworkLayer} {source target : String}
    (hwf : NetWf net) (hs : source ∈ nodeKeys net) (ht : target ∈ nodeKeys net)
    (hst : source ≠ target) {x : String} {xs : List String}
    (hkeys : nodeKeys net = x :: xs) :
    DInv net source target ((x :: xs).erase source)
      (relaxList net source 0 (x :: xs) (adjOf net source)
        (fun n => if n = source then some 0 else none) (fun _ => none)).1
      (relaxList net source 0 (x :: xs) (adjOf net source)
        (fun n => if n = source then some 0 else none) (fun _ => none)).2 := by
  set d0 : String → Option Nat := fun n => if n = source then some 0 else none
    with hd0
  set p0 : String → Option String := fun _ => none with hp0
  have hsrc0 : d0 source = some 0 := by rw [hd0]; simp
  have hd0ne : ∀ n, n ≠ source → d0 n = none := by
    intro n hn
    rw [hd0]
    simp [hn]
  have hUkeys : ∀ y ∈ x :: xs, y ∈ nodeKeys net := by
    intro y hy
    rw [hkeys]
    exact hy
  have hUnodup : (x :: xs).Nodup := hkeys ▸ hwf.1
  have hadjnodup : (adjOf net source).Nodup := adjOf_nodup hwf source
  have hsmem : source ∈ x :: xs := hkeys ▸ hs
  set d1 := (relaxList net source 0 (x :: xs) (adjOf net source) d0 p0).1 with hd1
  set p1 := (relaxList net source 0 (x :: xs) (adjOf net source) d0 p0).2 with hp1
  have hmem_erase : ∀ {y : String}, y ∈ (x :: xs).erase source ↔
      y ≠ source ∧ y ∈ x :: xs := fun {y} => hUnodup.mem_erase_iff
  have hsrcnt : d1 source = d0 source ∧ p1 source = p0 source := by
    by_cases hya : source ∈ adjOf net source
    · refine relaxList_char_same net source 0 (x :: xs) hadjnodup d0 p0 source hya
        (Or.inr ?_)
      rw [hsrc0]
      simp only [optLt, decide_eq_false_iff_not]
      omega
    · exact relaxList_untouched net source 0 (x :: xs) _ d0 p0 source hya
  have hrinv : RelaxInv net source source 0 (x :: xs) d1 p1 := by
    refine relaxList_relaxInv net source source 0 (x :: xs)
      (fun y hy => hy) hUkeys d0 p0 ?_
    refine ⟨hsrc0, rfl, hsrc0, ?_, ?_⟩
    · intro n c hc
      rw [hp0] at hc
      simp at hc
    · intro n dn hdn
      by_cases hn : n = source
      · subst hn
        rw [hsrc0] at hdn
        cases hdn
        refine ⟨[n], Traces.stop n rfl, IsWalk.single n, rfl, ?_, ?_, ?_⟩
        · simp
        · intro y hy
          rcases List.mem_singleton.mp hy with rfl
          exact hs
        · simp
      · rw [hd0ne n hn] at hdn
        cases hdn
  have hrelax : ∀ u ∈ adjOf net source, u ∈ x :: xs →
      ∃ du, d1 u = some du ∧ du ≤ 0 + latOf net source u := by
    intro u hu huU
    by_cases hus : u = source
    · subst hus
      rw [hsrcnt.1, hsrc0]
      exact ⟨0, rfl, Nat.zero_le _⟩
    · have hlt : optLt (some (0 + latOf net source u)) (d0 u) = true := by
        rw [hd0ne u hus]
        rfl
      obtain ⟨h1, -⟩ :=
        relaxList_char_updated net source 0 (x :: xs) hadjnodup d0 p0 u hu huU hlt
      exact ⟨_, by rw [hd1, h1], le_refl _⟩
  constructor
  · rw [hkeys]
    exact List.erase_sublist _ _
  · exact hmem_erase.mpr ⟨fun hh => hst hh.symm, hkeys ▸ ht⟩
  · intro hh
    exact (hmem_erase.mp hh).1 rfl
  · exact hs
  · rw [hsrcnt.1]; exact hsrc0
  · rw [hsrcnt.2]
  · intro v hv hvU
    have hvs : v = source := by
      by_contra hvs
      exact hvU (hmem_erase.mpr ⟨hvs, hkeys ▸ hv⟩)
    rw [hvs, hsrcnt.1, hsrc0]
    rfl
  · intro v hv hvU q hq dv hdv
    have hvs : v = source := by
      by_contra hvs
      exact hvU (hmem_erase.mpr ⟨hvs, hkeys ▸ hv⟩)
    subst hvs
    rw [hsrcnt.1, hsrc0] at hdv
    cases hdv
    exact Nat.zero_le _
  · intro v hv hvU u hu dv hdv
    have hvs : v = source := by
      by_contra hvs
      exact hvU (hmem_erase.mpr ⟨hvs, hkeys ▸ hv⟩)
    subst hvs
    rw [hsrcnt.1, hsrc0] at hdv
    cases hdv
    exact hrelax u hu (hkeys ▸ adj_mem_keys hwf hu)
  · intro v hv hvU u huU
    have hvs : v = source := by
      by_contra hvs
      exact hvU (hmem_erase.mpr ⟨hvs, hkeys ▸ hv⟩)
    rw [hvs, hsrcnt.1, hsrc0]
    exact optLe_some_zero _
  · intro n dn hdn
    obtain ⟨tr, htr, hwalk, hcost, hnodup, hkeysm, hdrop⟩ := hrinv.trace n dn hdn
    refine ⟨tr, htr, hwalk, hcost, hnodup, hkeysm, ?_⟩
    intro y hy
    rcases hdrop y hy with hh | hh
    · intro hmem
      exact hh (List.mem_of_mem_erase hmem)
    · rw [hh]
      intro hmem
      exact (hmem_erase.mp hmem).1 rfl
  · exact hrinv.pd

/-- Unfolding `find_best_path` through its first loop iteration (which
always settles the source). -/
theorem find_best_path_eq {net : MeshNetworkLayer} {source target : String}
    (h1 : (alookup net.nodes source).isSome) (h2 : (alookup net.nodes target).isSome)
    (hst : source ≠ target) {x : String} {xs : List String}
    (hkeys : nodeKeys net = x :: xs) :
    find_best_path net source target =
      (followPrev
        (dijkstraLoop net target xs.length
          (relaxList net source 0 (x :: xs) (adjOf net source)
            (fun n => if n = source then some 0 else none) (fun _ => none)).1
          (relaxList net source 0 (x :: xs) (adjOf net source)
            (fun n => if n = source then some 0 else none) (fun _ => none)).2
          ((x :: xs).erase source)).2
        ((x :: xs).length + 1) (some target)).reverse := by
  have hs : source ∈ x :: xs := by
    rw [← hkeys]
    exact (alookup_isSome_iff_mem _ _).mp h1
  have hn1 : (alookup net.nodes source).isNone = false := by
    cases h : alookup net.nodes source with
    | none => rw [h] at h1; simp at h1
    | some v => rfl
  have hn2 : (alookup net.nodes target).isNone = false := by
    cases h : alookup net.nodes target with
    | none => rw [h] at h2; simp at h2
    | some v => rfl
  have hcur := dijkstra_first_pop hs
  have hd0src : (fun n => if n = source then some (0 : Nat) else none) source =
      some 0 := by simp
  unfold find_best_path
  rw [hn1, hn2]
  simp only [Bool.or_self, Bool.false_eq_true, if_false, hst, hkeys,
    List.length_cons, dijkstraLoop, hcur, hd0src]
  simp

/-- Master correctness statement for `find_best_path` on registered
endpoints: on reachable inputs it returns a minimum-latency walk; on
unreachable inputs it returns the one-element list `[target]`. -/
theorem find_best_path_main {net : MeshNetworkLayer} {source target : String}
    (hwf : NetWf net) (hs : source ∈ nodeKeys net) (ht : target ∈ nodeKeys net) :
    (ReachableNet net source target →
      IsWalk net source target (find_best_path net source target) ∧
      ∀ q, IsWalk net source target q →
        walkCost net (find_best_path net source target) ≤ walkCost net q) ∧
    (¬ ReachableNet net source target →
      find_best_path net source target = [target]) := by
  have h1 : (alookup net.nodes source).isSome := (alookup_isSome_iff_mem _ _).mpr hs
  have h2 : (alookup net.nodes target).isSome := (alookup_isSome_iff_mem _ _).mpr ht
  by_cases hst : source = target
  · subst hst
    have hn1 : (alookup net.nodes source).isNone = false := by
      cases h : alookup net.nodes source with
      | none => rw [h] at h1; simp at h1
      | some v => rfl
    have hfbp : find_best_path net source source = [source] := by
      unfold find_best_path
      rw [hn1]
      simp
    constructor
    · intro _
      rw [hfbp]
      refine ⟨IsWalk.single source, ?_⟩
      intro q hq
      show walkCost net [source] ≤ walkCost net q
      show 0 ≤ walkCost net q
      exact Nat.zero_le _
    · intro hnr
      exact absurd ⟨[source], rfl, rfl, List.chain'_singleton _⟩ hnr
  · cases hkc : nodeKeys net with
    | nil => rw [hkc] at hs; exact absurd hs (by simp)
    | cons x xs =>
      have heq := find_best_path_eq h1 h2 hst hkc
      have hinv := dijkstra_first_inv hwf hs ht hst hkc
      have hsmem : source ∈ x :: xs := hkc ▸ hs
      have hlen : ((x :: xs).erase source).length ≤ xs.length := by
        rw [List.length_erase_of_mem hsmem]
        simp
      have hout := dijkstraLoop_out hwf xs.length ((x :: xs).erase source)
        (relaxList net source 0 (x :: xs) (adjOf net source)
          (fun n => if n = source then some 0 else none) (fun _ => none)).1
        (relaxList net source 0 (x :: xs) (adjOf net source)
          (fun n => if n = source then some 0 else none) (fun _ => none)).2
        hinv hlen
      constructor
      · intro hreach
        obtain ⟨dt, hdt, hmin⟩ := hout.reach hreach
        obtain ⟨tr, htr, hwalk, hcost, hnodup, hkeysmem⟩ := hout.trace target dt hdt
        have htrlen : tr.length ≤ (x :: xs).length := by
          have hsub : tr ⊆ x :: xs := fun y hy => hkc ▸ hkeysmem y hy
          exact (hnodup.subperm hsub).length_le
        have hfollow := traces_followPrev htr ((x :: xs).length + 1)
          (le_trans htrlen (Nat.le_succ _))
        rw [heq, hfollow, List.reverse_reverse]
        refine ⟨hwalk, ?_⟩
        intro q hq
        rw [hcost]
        exact hmin q hq
      · intro hnr
        have hpt : (dijkstraLoop net target xs.length
            (relaxList net source 0 (x :: xs) (adjOf net source)
              (fun n => if n = source then some 0 else none) (fun _ => none)).1
            (relaxList net source 0 (x :: xs) (adjOf net source)
              (fun n => if n = source then some 0 else none) (fun _ => none)).2
            ((x :: xs).erase source)).2 target = none := by
          cases hpt : (dijkstraLoop net target xs.length
              (relaxList net source 0 (x :: xs) (adjOf net source)
                (fun n => if n = source then some 0 else none) (fun _ => none)).1
              (relaxList net source 0 (x :: xs) (adjOf net source)
                (fun n => if n = source then some 0 else none) (fun _ => none)).2
              ((x :: xs).erase source)).2 target with
          | none => rfl
          | some c =>
            exfalso
            obtain ⟨dt, hdt⟩ :=
              Option.isSome_iff_exists.mp (hout.pd target c hpt)
            obtain ⟨tr, -, hwalk, -, -, -⟩ := hout.trace target dt hdt
            exact hnr ⟨tr, hwalk.validPath⟩
        rw [heq]
        show (followPrev _ ((x :: xs).length + 1) (some target)).reverse = [target]
        rw [show (x :: xs).length + 1 = xs.length + 1 + 1 from by simp]
        simp only [followPrev, hpt]
        rfl

/-!  Claim C2 (corrected).  Unknown endpoints give the empty path, but an
unreachable (registered) target does not: the reconstruction loop always
emits the target itself, producing `[target]`.  -/

/-- On `exNet2` (two registered nodes, no links) no walk joins `a` to
`b`. -/
theorem exNet2_not_reachable : ¬ ReachableNet exNet2 "a" "b" := by
  rintro ⟨p, hh, hl, hc⟩
  cases p with
  | nil => simp at hh
  | cons z q =>
    simp only [List.head?_cons, Option.some.injEq] at hh
    subst hh
    cases q with
    | nil =>
      simp only [List.getLast?_singleton, Option.some.injEq] at hl
      exact absurd hl (by decide)
    | cons y r =>
      obtain ⟨hzy, -⟩ := List.chain'_cons.mp hc
      have : adjOf exNet2 "a" = [] := by decide
      rw [this] at hzy
      simp at hzy

/-- C2 counterexample: on `exNet2` both endpoints are registered and `b`
is unreachable from `a`, yet `find_best_path` returns `["b"]` — not the
empty sequence the claim requires. -/
theorem C2_counterexample :
    (alookup exNet2.nodes "a").isSome = true ∧
    (alookup exNet2.nodes "b").isSome = true ∧
    ¬ ReachableNet exNet2 "a" "b" ∧
    find_best_path exNet2 "a" "b" = ["b"] ∧ ["b"] ≠ ([] : List String) := by
  exact ⟨by decide, by decide, exNet2_not_reachable, by decide, by decide⟩

/-- C2 (amended): if either endpoint is unregistered, `find_best_path`
returns the empty sequence; if both are registered but the target is
unreachable, it returns the one-element sequence `[target]` (not the empty
sequence); otherwise it returns an ordered list of node ids beginning with
the source and ending with the target. -/
theorem C2_find_best_path_endpoints (net : MeshNetworkLayer)
    (source target : String) (hwf : NetWf net) :
    ((alookup net.nodes source).isSome = false ∨
        (alookup net.nodes target).isSome = false →
      find_best_path net source target = []) ∧
    (source ∈ nodeKeys net → target ∈ nodeKeys net →
      ¬ ReachableNet net source target →
      find_best_path net source target = [target]) ∧
    (source ∈ nodeKeys net → target ∈ nodeKeys net →
      ReachableNet net source target →
      (find_best_path net source target).head? = some source ∧
      (find_best_path net source target).getLast? = some target) := by
  refine ⟨?_, ?_, ?_⟩
  · intro h
    unfold find_best_path
    rcases h with h | h
    · have : (alookup net.nodes source).isNone = true := by
        cases hh : alookup net.nodes source with
        | none => rfl
        | some v => rw [hh] at h; simp at h
      rw [this]
      simp
    · have : (alookup net.nodes target).isNone = true := by
        cases hh : alookup net.nodes target with
        | none => rfl
        | some v => rw [hh] at h; simp at h
      rw [this]
      simp
  · intro hs ht hnr
    exact (find_best_path_main hwf hs ht).2 hnr
  · intro hs ht hreach
    obtain ⟨hwalk, -⟩ := (find_best_path_main hwf hs ht).1 hreach
    exact ⟨hwalk.head_eq, hwalk.getLast_eq⟩

/-- The example networks are well formed. -/
theorem exNet2_wf : NetWf exNet2 := by
  unfold NetWf
  decide

theorem exNetL_wf : NetWf exNetL := by
  unfold NetWf
  decide

/-- The one-link walk `a - b` of `exNetL` is a valid path. -/
theorem exNetL_walk_ab : ValidPath exNetL "a" "b" ["a", "b"] := by
  refine ⟨rfl, rfl, ?_⟩
  rw [List.chain'_pair]
  decide

/-- C2 witness: the amended theorem applied at `exNet2` (unreachable
case, giving `["b"]`) and at `exNetL` (reachable case). -/
theorem C2_find_best_path_endpoints_witness :
    (NetWf exNet2 ∧ "a" ∈ nodeKeys exNet2 ∧ "b" ∈ nodeKeys exNet2 ∧
      ¬ ReachableNet exNet2 "a" "b") ∧
    find_best_path exNet2 "a" "b" = ["b"] :=
  ⟨⟨exNet2_wf, by decide, by decide, exNet2_not_reachable⟩,
    (C2_find_best_path_endpoints exNet2 "a" "b" exNet2_wf).2.1
      (by decide) (by decide) exNet2_not_reachable⟩

/-!  Claim C6 (confirmed).  On reachable registered endpoints
`find_best_path` returns a sequence whose consecutive pairs are recorded
links and whose total latency is minimal among all such sequences.  -/

/-- C6: for every well-formed network and registered endpoints with the
target reachable from the source, `find_best_path` returns a valid path
(consecutive pairs are recorded links, starting at the source and ending
at the target) whose total latency is the minimum over all link-sequences
from source to target. -/
theorem C6_find_best_path_shortest (net : MeshNetworkLayer)
    (source target : String) (hwf : NetWf net)
    (hs : source ∈ nodeKeys net) (ht : target ∈ nodeKeys net)
    (hreach : ReachableNet net source target) :
    ValidPath net source target (find_best_path net source target) ∧
    ∀ q, ValidPath net source target q →
      walkCost net (find_best_path net source target) ≤ walkCost net q := by
  obtain ⟨hwalk, hmin⟩ := (find_best_path_main hwf hs ht).1 hreach
  exact ⟨hwalk.validPath, fun q hq => hmin q (validPath_isWalk hq)⟩

/-- C6 witness: the theorem applied at the two-node network `exNetL` with
its single 7 ms link. -/
theorem C6_find_best_path_shortest_witness :
    (NetWf exNetL ∧ "a" ∈ nodeKeys exNetL ∧ "b" ∈ nodeKeys exNetL ∧
      ReachableNet exNetL "a" "b") ∧
    (ValidPath exNetL "a" "b" (find_best_path exNetL "a" "b") ∧
      ∀ q, ValidPath exNetL "a" "b" q →
        walkCost exNetL (find_best_path exNetL "a" "b") ≤ walkCost exNetL q) :=
  ⟨⟨exNetL_wf, by decide, by decide, ⟨["a", "b"], exNetL_walk_ab⟩⟩,
    C6_find_best_path_shortest exNetL "a" "b" exNetL_wf (by decide) (by decide)
      ⟨["a", "b"], exNetL_walk_ab⟩⟩

/-!  Supporting invariance results: the well-formedness hypothesis of the
path theorems holds in every state built through the topology API, and the
clock-domination hypothesis of C9 holds in every state built through the
replication API.  -/

theorem mem_aset {β : Type} {l : List (String × β)} {k : String} {v : β} :
    ∀ e ∈ aset l k v, e = (k, v) ∨ e ∈ l := by
  induction l with
  | nil => intro e he; simp [aset] at he; simp [he]
  | cons hd tl ih =>
    obtain ⟨k', v'⟩ := hd
    intro e he
    by_cases hk : k' = k
    · simp only [aset, hk, if_true, List.mem_cons] at he
      rcases he with he | he
      · exact Or.inl he
      · exact Or.inr (List.mem_cons_of_mem _ he)
    · simp only [aset, hk, if_false, List.mem_cons] at he
      rcases he with he | he
      · exact Or.inr (he ▸ List.mem_cons_self _ _)
      · rcases ih e he with he' | he'
        · exact Or.inl he'
        · exact Or.inr (List.mem_cons_of_mem _ he')

theorem setAdd_nodup {l : List String} {x : String} (h : l.Nodup) :
    (setAdd l x).Nodup := by
  unfold setAdd
  by_cases hx : x ∈ l
  · simp [hx, h]
  · simp only [hx, if_false]
    simp only [List.nodup_append, List.nodup_singleton]
    refine ⟨h, trivial, ?_⟩
    intro y hy hy'
    rw [List.mem_singleton.mp hy'] at hy
    exact hx hy

theorem mem_setAdd {l : List String} {x y : String} (h : y ∈ setAdd l x) :
    y ∈ l ∨ y = x := by
  unfold setAdd at h
  by_cases hx : x ∈ l
  · rw [if_pos hx] at h
    exact Or.inl h
  · rw [if_neg hx] at h
    rcases List.mem_append.mp h with h | h
    · exact Or.inl h
    · exact Or.inr (List.mem_singleton.mp h)

theorem NetWf_empty : NetWf ({} : MeshNetworkLayer) := by
  unfold NetWf
  decide

theorem NetWf_add_node {net : MeshNetworkLayer} (hwf : NetWf net)
    (node : MeshNode) : NetWf (add_node net node).1 := by
  unfold add_node
  by_cases hin : (alookup net.nodes node.node_id).isSome
  · simp only [hin, if_true]
    exact hwf
  · simp only [hin, Bool.false_eq_true, if_false]
    have hkeys : nodeKeys { net with
        nodes := net.nodes ++ [(node.node_id, node)]
        node_graph := net.node_graph ++ [(node.node_id, [])] } =
        nodeKeys net ++ [node.node_id] := by
      simp [nodeKeys]
    have hnotmem : node.node_id ∉ nodeKeys net := by
      intro hmem
      exact hin ((alookup_isSome_iff_mem _ _).mpr hmem)
    refine ⟨?_, ?_, ?_⟩
    · rw [hkeys]
      simp only [List.nodup_append, List.nodup_singleton]
      refine ⟨hwf.1, trivial, ?_⟩
      intro y hy hy'
      rw [List.mem_singleton.mp hy'] at hy
      exact hnotmem hy
    · intro e he
      simp only at he
      rcases List.mem_append.mp he with he | he
      · exact hwf.2.1 e he
      · rw [List.mem_singleton.mp he]
        simp
    · intro e he b hb
      rw [hkeys]
      simp only at he
      rcases List.mem_append.mp he with he | he
      · exact List.mem_append_left _ (hwf.2.2 e he b hb)
      · rw [List.mem_singleton.mp he] at hb
        simp at hb

theorem NetWf_connect_nodes {net : MeshNetworkLayer} (hwf : NetWf net)
    (a b : String) (lat bw : Nat) : NetWf (connect_nodes net a b lat bw).1 := by
  unfold connect_nodes
  by_cases hcond : ((alookup net.nodes a).isNone || (alookup net.nodes b).isNone) = true
  · simp only [hcond, if_true]
    exact hwf
  · simp only [hcond, Bool.false_eq_true, if_false]
    simp only [Bool.or_eq_true, not_or, Bool.not_eq_true] at hcond
    have ha : a ∈ nodeKeys net := by
      refine (alookup_isSome_iff_mem _ _).mp ?_
      cases h : alookup net.nodes a with
      | none => rw [h] at hcond; simp at hcond
      | some v => rfl
    have hb : b ∈ nodeKeys net := by
      refine (alookup_isSome_iff_mem _ _).mp ?_
      cases h : alookup net.nodes b with
      | none => rw [h] at hcond; simp at hcond
      | some v => rfl
    have hgraph_entry : ∀ e, e ∈ aset (aset net.node_graph a
        (setAdd (adjOf net a) b)) b
          (setAdd ((alookup (aset net.node_graph a
            (setAdd (adjOf net a) b)) b).getD []) a) →
        e.2.Nodup ∧ ∀ y ∈ e.2, y ∈ nodeKeys net := by
      intro e he
      have hinner_nodup : ((alookup (aset net.node_graph a
          (setAdd (adjOf net a) b)) b).getD []).Nodup := by
        cases hlk : alookup (aset net.node_graph a (setAdd (adjOf net a) b)) b with
        | none => simp
        | some l' =>
          rcases mem_aset _ (alookup_mem hlk) with he' | he'
          · cases he'
            exact setAdd_nodup (adjOf_nodup hwf a)
          · exact hwf.2.1 _ he'
      have hinner_mem : ∀ y ∈ ((alookup (aset net.node_graph a
          (setAdd (adjOf net a) b)) b).getD []), y ∈ nodeKeys net := by
        intro y hy
        cases hlk : alookup (aset net.node_graph a (setAdd (adjOf net a) b)) b with
        | none => rw [hlk] at hy; simp at hy
        | some l' =>
          rw [hlk] at hy
          simp only [Option.getD_some] at hy
          rcases mem_aset _ (alookup_mem hlk) with he' | he'
          · cases he'
            rcases mem_setAdd hy with hy' | hy'
            · exact adj_mem_keys hwf hy'
            · rw [hy']; exact hb
          · exact hwf.2.2 _ he' y hy
      rcases mem_aset e he with he' | he'
      · subst he'
        refine ⟨setAdd_nodup hinner_nodup, ?_⟩
        intro y hy
        rcases mem_setAdd hy with hy' | hy'
        · exact hinner_mem y hy'
        · rw [hy']; exact ha
      · rcases mem_aset e he' with he'' | he''
        · subst he''
          refine ⟨setAdd_nodup (adjOf_nodup hwf a), ?_⟩
          intro y hy
          rcases mem_setAdd hy with hy' | hy'
          · exact adj_mem_keys hwf hy'
          · rw [hy']; exact hb
        · exact ⟨hwf.2.1 e he'', fun y hy => hwf.2.2 e he'' y hy⟩
    exact ⟨hwf.1, fun e he => (hgraph_entry e he).1,
      fun e he => (hgraph_entry e he).2⟩

theorem replicateLoop_clock_le (net : MeshNetworkLayer) (primary : CodeReplica)
    (targets : List String) :
    ∀ (md : FileMetadata) (clk : Nat),
      clk ≤ (replicateLoop net primary targets md clk).2 := by
  induction targets with
  | nil => intro md clk; exact le_refl _
  | cons t rest ih =>
    intro md clk
    simp only [replicateLoop]
    cases alookup net.nodes t with
    | none => exact ih md clk
    | some node =>
      by_cases habs : (alookup md.replicas t).isNone
      · simp only [habs, if_true]
        exact le_trans (Nat.le_succ _) (ih _ _)
      · simp only [habs, Bool.false_eq_true, if_false]
        exact ih md clk

theorem replicateLoop_ts_lt (net : MeshNetworkLayer) (primary : CodeReplica)
    (targets : List String) :
    ∀ (md : FileMetadata) (clk : Nat),
      (∀ kv ∈ md.replicas, kv.2.timestamp < clk) →
      ∀ kv ∈ (replicateLoop net primary targets md clk).1.replicas,
        kv.2.timestamp < (replicateLoop net primary targets md clk).2 := by
  induction targets with
  | nil =>
    intro md clk hts kv hkv
    exact hts kv hkv
  | cons t rest ih =>
    intro md clk hts
    simp only [replicateLoop]
    cases alookup net.nodes t with
    | none => exact ih md clk hts
    | some node =>
      by_cases habs : (alookup md.replicas t).isNone
      · simp only [habs, if_true]
        refine ih _ _ ?_
        intro kv hkv
        rcases List.mem_append.mp hkv with hkv | hkv
        · exact lt_trans (hts kv hkv) (Nat.lt_succ_self _)
        · rw [List.mem_singleton.mp hkv]
          exact Nat.lt_succ_self _
      · simp only [habs, Bool.false_eq_true, if_false]
        exact ih md clk hts

theorem syncReplicas_clock_le (src c h : String) (l : List (String × CodeReplica)) :
    ∀ clk, clk ≤ (syncReplicas src c h l clk).2.2 := by
  induction l with
  | nil => intro clk; exact le_refl _
  | cons hd tl ih =>
    intro clk
    obtain ⟨nid, r⟩ := hd
    by_cases hs : nid = src
    · simp only [syncReplicas, hs, if_true]
      exact ih clk
    · simp only [syncReplicas, hs, if_false]
      exact le_trans (Nat.le_succ _) (ih (clk + 1))

theorem syncReplicas_ts_lt (src c h : String) (l : List (String × CodeReplica)) :
    ∀ clk, (∀ kv ∈ l, kv.2.timestamp < clk) →
      ∀ kv ∈ (syncReplicas src c h l clk).1,
        kv.2.timestamp < (syncReplicas src c h l clk).2.2 := by
  induction l with
  | nil => intro clk hts kv hkv; simp [syncReplicas] at hkv
  | cons hd tl ih =>
    intro clk hts
    obtain ⟨nid, r⟩ := hd
    by_cases hs : nid = src
    · simp only [syncReplicas, hs, if_true, List.mem_cons]
      intro kv hkv
      rcases hkv with hkv | hkv
      · rw [hkv]
        exact lt_of_lt_of_le (hts (nid, r) (List.mem_cons_self _ _))
          (syncReplicas_clock_le src c h tl clk)
      · exact ih clk (fun kv' hkv' => hts kv' (List.mem_cons_of_mem _ hkv')) kv hkv
    · simp only [syncReplicas, hs, if_false, List.mem_cons]
      intro kv hkv
      rcases hkv with hkv | hkv
      · rw [hkv]
        exact lt_of_lt_of_le (Nat.lt_succ_self clk)
          (syncReplicas_clock_le src c h tl (clk + 1))
      · refine ih (clk + 1) ?_ kv hkv
        intro kv' hkv'
        exact lt_trans (hts kv' (List.mem_cons_of_mem _ hkv')) (Nat.lt_succ_self _)

theorem resolveReplicas_clock_le (w : String) (winning : CodeReplica)
    (l : List (String × CodeReplica)) :
    ∀ clk, clk ≤ (resolveReplicas w winning l clk).2 := by
  induction l with
  | nil => intro clk; exact le_refl _
  | cons hd tl ih =>
    intro clk
    obtain ⟨nid, r⟩ := hd
    by_cases hs : nid = w
    · simp only [resolveReplicas, hs, if_true]
      exact ih clk
    · simp only [resolveReplicas, hs, if_false]
      exact le_trans (Nat.le_succ _) (ih (clk + 1))

theorem resolveReplicas_ts_lt (w : String) (winning : CodeReplica)
    (l : List (String × CodeReplica)) :
    ∀ clk, (∀ kv ∈ l, kv.2.timestamp < clk) →
      ∀ kv ∈ (resolveReplicas w winning l clk).1,
        kv.2.timestamp < (resolveReplicas w winning l clk).2 := by
  induction l with
  | nil => intro clk hts kv hkv; simp [resolveReplicas] at hkv
  | cons hd tl ih =>
    intro clk hts
    obtain ⟨nid, r⟩ := hd
    by_cases hs : nid = w
    · simp only [resolveReplicas, hs, if_true, List.mem_cons]
      intro kv hkv
      rcases hkv with hkv | hkv
      · rw [hkv]
        exact lt_of_lt_of_le (hts (nid, r) (List.mem_cons_self _ _))
          (resolveReplicas_clock_le w winning tl clk)
      · exact ih clk (fun kv' hkv' => hts kv' (List.mem_cons_of_mem _ hkv')) kv hkv
    · simp only [resolveReplicas, hs, if_false, List.mem_cons]
      intro kv hkv
      rcases hkv with hkv | hkv
      · rw [hkv]
        exact lt_of_lt_of_le (Nat.lt_succ_self clk)
          (resolveReplicas_clock_le w winning tl (clk + 1))
      · refine ih (clk + 1) ?_ kv hkv
        intro kv' hkv'
        exact lt_trans (hts kv' (List.mem_cons_of_mem _ hkv')) (Nat.lt_succ_self _)

theorem clockInv_empty : ClockInv ({} : ReplState) := by
  intro kv hkv
  simp at hkv

/-- Every replication-manager operation preserves the clock-domination
invariant, so C9's timestamp hypothesis holds in every reachable state. -/
theorem clockInv_preserved {net : MeshNetworkLayer} {s s' : ReplState}
    {op : ReplOp} (hinv : ClockInv s) (happ : applyOp net s op = Except.ok s') :
    ClockInv s' := by
  cases op with
  | registerOp f p c n =>
    simp only [applyOp] at happ
    by_cases hf : (alookup s.files f).isSome
    · simp only [register_file, hf, if_true, Except.map] at happ
      cases happ
      exact hinv
    · simp only [register_file, hf, Bool.false_eq_true, if_false] at happ
      cases hn : alookup net.nodes n with
      | none => rw [hn] at happ; simp [Except.map] at happ
      | some node =>
        rw [hn] at happ
        simp only [Except.map] at happ
        cases happ
        intro kv hkv kv2 hkv2
        simp only at hkv hkv2 ⊢
        rcases List.mem_append.mp hkv with hkv | hkv
        · exact lt_trans (hinv kv hkv kv2 hkv2) (Nat.lt_succ_self _)
        · rw [List.mem_singleton.mp hkv] at hkv2
          simp only [List.mem_singleton] at hkv2
          rw [hkv2]
          exact Nat.lt_succ_self _
  | replicateOp f ts =>
    simp only [applyOp] at happ
    cases hmd : alookup s.files f with
    | none =>
      simp only [replicate_file, hmd] at happ
      cases happ
      exact hinv
    | some md =>
      cases hprim : md.get_primary_replica with
      | none =>
        simp only [replicate_file, hmd, hprim] at happ
        cases happ
        exact hinv
      | some primary =>
        simp only [replicate_file, hmd, hprim] at happ
        cases happ
        intro kv hkv kv2 hkv2
        simp only at hkv ⊢
        rcases mem_aset kv hkv with hkv' | hkv'
        · subst hkv'
          exact replicateLoop_ts_lt net primary ts md s.clock
            (fun kv' hkv' => hinv (f, md) (alookup_mem hmd) kv' hkv') kv2 hkv2
        · exact lt_of_lt_of_le (hinv kv hkv' kv2 hkv2)
            (replicateLoop_clock_le net primary ts md s.clock)
  | syncOp f c n =>
    simp only [applyOp] at happ
    cases hmd : alookup s.files f with
    | none =>
      simp only [sync_file, hmd] at happ
      cases happ
      exact hinv
    | some md =>
      simp only [sync_file, hmd] at happ
      cases happ
      intro kv hkv kv2 hkv2
      simp only at hkv ⊢
      rcases mem_aset kv hkv with hkv' | hkv'
      · subst hkv'
        refine lt_trans ?_ (Nat.lt_succ_self _)
        exact syncReplicas_ts_lt n c (sha256_16 c) md.replicas s.clock
          (fun kv' hkv' => hinv (f, md) (alookup_mem hmd) kv' hkv') kv2 hkv2
      · refine lt_of_lt_of_le (hinv kv hkv' kv2 hkv2) ?_
        exact le_trans (syncReplicas_clock_le n c (sha256_16 c) md.replicas s.clock)
          (Nat.le_succ _)
  | resolveOp f w =>
    simp only [applyOp] at happ
    cases hmd : alookup s.files f with
    | none =>
      simp only [resolve_conflict, hmd] at happ
      cases happ
      exact hinv
    | some md =>
      cases hw : alookup md.replicas w with
      | none =>
        simp only [resolve_conflict, hmd, hw] at happ
        cases happ
        exact hinv
      | some winning =>
        simp only [resolve_conflict, hmd, hw] at happ
        cases happ
        intro kv hkv kv2 hkv2
        simp only at hkv ⊢
        rcases mem_aset kv hkv with hkv' | hkv'
        · subst hkv'
          exact resolveReplicas_ts_lt w winning md.replicas s.clock
            (fun kv' hkv' => hinv (f, md) (alookup_mem hmd) kv' hkv') kv2 hkv2
        · exact lt_of_lt_of_le (hinv kv hkv' kv2 hkv2)
            (resolveReplicas_clock_le w winning md.replicas s.clock)

end MeshIDE
